import Mathlib

/-!
Verification of the trie implementation in `trie.py` (class `Trie` with private
node class `_Node`).

The shallow embedding below translates the Python source:

* `_Node` has a `children` dict (symbol → node) and a `value` field, where a
  private sentinel object marks a node as not occupied.  We model `children`
  as an association list (Python dicts have unique keys and preserve insertion
  order; `setChild`/`eraseChild`/`lookupChild` mirror dict assignment,
  deletion, and lookup) and `value : Option V`, where `none` plays the role of
  the identity-compared sentinel and `some v` is an actual stored object.
  Since `V` is an arbitrary type, a Python `None` stored as an actual value is
  represented by instantiating `V` with an option type, keeping it distinct
  from the sentinel.
* The `Trie` class holds `_alphabet` (a list, fixed at construction),
  `_root`, and the cached `_count`.
* Mutating methods become functions returning the new tree; a method that can
  raise `KeyError` returns `Except String`, with the post-state function
  `removeD` giving the tree after the call (the source raises before
  performing any mutation, so the post-state on error is the input tree).
-/

namespace TriePy

/-- The `_Node` dataclass: a children mapping plus a value field, where the
value is `none` exactly when the node holds the not-occupied sentinel. -/
inductive Node (α V : Type) where
  | mk (children : List (α × Node α V)) (value : Option V)

/-- Projection for the `children` dict of a node. -/
def Node.children {α V : Type} : Node α V → List (α × Node α V)
  | .mk cs _ => cs

/-- Projection for the `value` field of a node (`none` = sentinel). -/
def Node.value {α V : Type} : Node α V → Option V
  | .mk _ v => v

@[simp] theorem Node.children_mk {α V : Type} (cs : List (α × Node α V)) (v : Option V) :
    (Node.mk cs v).children = cs := rfl

@[simp] theorem Node.value_mk {α V : Type} (cs : List (α × Node α V)) (v : Option V) :
    (Node.mk cs v).value = v := rfl

variable {α V : Type} [DecidableEq α]

/-- Dict lookup `children[c]` / the test `c in children`. -/
def lookupChild (c : α) : List (α × Node α V) → Option (Node α V)
  | [] => none
  | (c', n) :: rest => if c' = c then some n else lookupChild c rest

/-- Dict assignment `children[c] = n`: replace the binding in place if the key
is present, otherwise append the new binding (insertion order). -/
def setChild (c : α) (n : Node α V) : List (α × Node α V) → List (α × Node α V)
  | [] => [(c, n)]
  | (c', m) :: rest => if c' = c then (c, n) :: rest else (c', m) :: setChild c n rest

/-- Dict deletion `del children[c]`. -/
def eraseChild (c : α) : List (α × Node α V) → List (α × Node α V)
  | [] => []
  | (c', m) :: rest => if c' = c then rest else (c', m) :: eraseChild c rest

@[simp] theorem lookupChild_nil (c : α) : lookupChild c ([] : List (α × Node α V)) = none := rfl

@[simp] theorem lookupChild_cons (c c' : α) (n : Node α V) (rest : List (α × Node α V)) :
    lookupChild c ((c', n) :: rest) = if c' = c then some n else lookupChild c rest := rfl

@[simp] theorem setChild_nil (c : α) (n : Node α V) : setChild c n [] = [(c, n)] := rfl

@[simp] theorem setChild_cons (c c' : α) (n m : Node α V) (rest : List (α × Node α V)) :
    setChild c n ((c', m) :: rest)
      = if c' = c then (c, n) :: rest else (c', m) :: setChild c n rest := rfl

@[simp] theorem eraseChild_nil (c : α) : eraseChild c ([] : List (α × Node α V)) = [] := rfl

@[simp] theorem eraseChild_cons (c c' : α) (m : Node α V) (rest : List (α × Node α V)) :
    eraseChild c ((c', m) :: rest)
      = if c' = c then rest else (c', m) :: eraseChild c rest := rfl

theorem lookupChild_setChild_self (c : α) (n : Node α V) (cs : List (α × Node α V)) :
    lookupChild c (setChild c n cs) = some n := by
  induction cs with
  | nil => simp
  | cons p rest ih =>
    obtain ⟨c', m⟩ := p
    by_cases h : c' = c <;> simp [h, ih]

theorem lookupChild_setChild_ne {c d : α} (hne : d ≠ c) (n : Node α V)
    (cs : List (α × Node α V)) :
    lookupChild d (setChild c n cs) = lookupChild d cs := by
  induction cs with
  | nil => simp [Ne.symm hne]
  | cons p rest ih =>
    obtain ⟨c', m⟩ := p
    by_cases h : c' = c
    · subst h
      simp [Ne.symm hne]
    · by_cases h2 : c' = d
      · subst h2
        simp [h]
      · simp [h, h2, ih]

theorem lookupChild_eraseChild_ne {c d : α} (hne : d ≠ c) (cs : List (α × Node α V)) :
    lookupChild d (eraseChild c cs) = lookupChild d cs := by
  induction cs with
  | nil => simp
  | cons p rest ih =>
    obtain ⟨c', m⟩ := p
    by_cases h : c' = c
    · subst h
      simp [Ne.symm hne]
    · by_cases h2 : c' = d
      · subst h2
        simp [h]
      · simp [h, h2, ih]

/-- Keys of a children dict. -/
def childKeys (cs : List (α × Node α V)) : List α := cs.map Prod.fst

theorem lookupChild_eq_none_of_not_mem {c : α} {cs : List (α × Node α V)}
    (h : c ∉ childKeys cs) : lookupChild c cs = none := by
  induction cs with
  | nil => simp
  | cons p rest ih =>
    obtain ⟨c', m⟩ := p
    simp only [childKeys, List.map_cons, List.mem_cons] at h
    push_neg at h
    simp only [lookupChild_cons, if_neg (Ne.symm h.1)]
    exact ih h.2

theorem lookupChild_eraseChild_self {c : α} {cs : List (α × Node α V)}
    (hn : (childKeys cs).Nodup) : lookupChild c (eraseChild c cs) = none := by
  induction cs with
  | nil => simp
  | cons p rest ih =>
    obtain ⟨c', m⟩ := p
    simp only [childKeys, List.map_cons, List.nodup_cons] at hn
    by_cases h : c' = c
    · subst h
      simpa using lookupChild_eq_none_of_not_mem hn.1
    · simp only [eraseChild_cons, if_neg h, lookupChild_cons, if_neg h]
      exact ih hn.2

theorem sizeOf_lookupChild {c : α} {cs : List (α × Node α V)} {n : Node α V}
    (h : lookupChild c cs = some n) : sizeOf n < sizeOf cs := by
  induction cs with
  | nil => simp at h
  | cons p rest ih =>
    obtain ⟨c', m⟩ := p
    simp only [lookupChild_cons] at h
    by_cases hc : c' = c
    · rw [if_pos hc] at h
      injection h with h
      subst h
      simp
      omega
    · rw [if_neg hc] at h
      have := ih h
      simp
      omega

theorem sizeOf_lookupChild_node {c : α} {n m : Node α V}
    (h : lookupChild c n.children = some m) : sizeOf m < sizeOf n := by
  obtain ⟨cs, v⟩ := n
  simp only [Node.children_mk] at h
  have := sizeOf_lookupChild h
  simp
  omega

/-- The walk of the helper `Trie._get_node`: follow the key symbol by symbol;
`none` when an intermediate symbol is missing from a children dict. -/
def Node.getNode : Node α V → List α → Option (Node α V)
  | n, [] => some n
  | n, c :: k =>
    match lookupChild c n.children with
    | none => none
    | some ch => ch.getNode k

@[simp] theorem Node.getNode_nil (n : Node α V) : n.getNode [] = some n := rfl

theorem Node.getNode_cons (n : Node α V) (c : α) (k : List α) :
    n.getNode (c :: k)
      = match lookupChild c n.children with
        | none => none
        | some ch => ch.getNode k := rfl

/-- Value stored for a key below a node: the terminal node's value when the
path exists, `none` (the sentinel reading) otherwise. -/
def Node.lookupVal (n : Node α V) (k : List α) : Option V :=
  (n.getNode k).bind Node.value

/-- Trie._count_subtree: occupied-node count of a subtree (the source visits
every node with an explicit stack; this is the same count by recursion). -/
def Node.countSubtree : Node α V → Nat
  | .mk cs v =>
    (if v.isSome then 1 else 0) + (cs.attach.map fun p => p.1.2.countSubtree).sum
decreasing_by
  obtain ⟨⟨c, m⟩, hp⟩ := p
  have h1 := List.sizeOf_lt_of_mem hp
  simp at h1 ⊢
  omega

/-- Structural well-formedness inherited from Python dicts: every children
mapping in the subtree binds pairwise distinct symbols. -/
def Node.wf : Node α V → Bool
  | .mk cs _ => decide ((childKeys cs).Nodup) && cs.attach.all fun p => p.1.2.wf
decreasing_by
  obtain ⟨⟨c, m⟩, hp⟩ := p
  have h1 := List.sizeOf_lt_of_mem hp
  simp at h1 ⊢
  omega

/-- Invariant I1 of the spec: every node strictly below this one is occupied
or has at least one child (the node itself, used at the root, is exempt). -/
def Node.pruned : Node α V → Bool
  | .mk cs _ => cs.attach.all fun p =>
      (p.1.2.value.isSome || !p.1.2.children.isEmpty) && p.1.2.pruned
decreasing_by
  obtain ⟨⟨c, m⟩, hp⟩ := p
  have h1 := List.sizeOf_lt_of_mem hp
  simp at h1 ⊢
  omega

end TriePy

/-- The Trie class: the caller-supplied alphabet (ordering iteration only),
the root node, and the cached item count. -/
structure TriePy.Trie (α V : Type) where
  _alphabet : List α
  _root : TriePy.Node α V
  _count : Nat

namespace TriePy

variable {α V : Type} [DecidableEq α]

/-- Trie.__init__: root is a fresh unoccupied node, count starts at 0. -/
def Trie.init (alphabet : List α) : Trie α V := ⟨alphabet, .mk [] none, 0⟩

/-- Trie.__len__: returns the cached count. -/
def Trie.len (t : Trie α V) : Nat := t._count

/-- Trie.count: recomputes the number of items by full traversal
(the spec's count_recomputed), as opposed to the cached __len__. -/
def Trie.count_recomputed (t : Trie α V) : Nat := t._root.countSubtree

/-- Trie._get_node on the tree's root. -/
def Trie._get_node (t : Trie α V) (key : List α) : Option (Node α V) :=
  t._root.getNode key

/-- Trie.__contains__: the node exists and its value is not the sentinel. -/
def Trie.contains (t : Trie α V) (key : List α) : Bool :=
  match t._get_node key with
  | none => false
  | some n => n.value.isSome

/-- Trie.__getitem__ (lookup_required): the value, or KeyError when the node
is missing or unoccupied. -/
def Trie.getItem (t : Trie α V) (key : List α) : Except String V :=
  match t._get_node key with
  | some n =>
    match n.value with
    | some v => .ok v
    | none => .error "Tree does not contain a value for the given key."
  | none => .error "Tree does not contain a value for the given key."

/-- Trie.get: the value if the key is in the tree, else the default. -/
def Trie.get (t : Trie α V) (key : List α) (dflt : V) : V :=
  match t._get_node key with
  | some n =>
    match n.value with
    | some v => v
    | none => dflt
  | none => dflt

/-- The walk of Trie.insert: create missing children (fresh nodes with empty
children and sentinel value) along the key, then overwrite the terminal
value. -/
def Node.insertNode : Node α V → List α → V → Node α V
  | n, [], v => .mk n.children (some v)
  | n, c :: k, v =>
    let child := match lookupChild c n.children with
      | some ch => ch
      | none => .mk [] none
    .mk (setChild c (child.insertNode k v) n.children) n.value

/-- Trie.insert: the count is incremented exactly when the terminal node's
value was still the sentinel after the walk, i.e. when the key was not
already contained. -/
def Trie.insert (t : Trie α V) (key : List α) (v : V) : Trie α V :=
  ⟨t._alphabet, t._root.insertNode key v,
    if t.contains key then t._count else t._count + 1⟩

/-- Trie.remove's walk, written recursively.  The source walks down once
recording the cutoff node (the last node on the path that is occupied, has
at least two children, or is the root) and the edge symbol taken there; when
the terminal node is childless after being unoccupied it deletes the
cutoff's recorded child, detaching the whole chain of unoccupied single-child
nodes below the cutoff.  The recursion below erases a child binding exactly
when everything below it on the path has become unoccupied and childless,
which deletes precisely that chain (both raise `KeyError` before any
mutation when the path is missing or the terminal is unoccupied). -/
def Node.removeNode : Node α V → List α → Except String (Node α V)
  | n, [] =>
    match n.value with
    | some _ => .ok (.mk n.children none)
    | none => .error "Word to delete is not contained in tree."
  | n, c :: k =>
    match lookupChild c n.children with
    | none => .error "Word to delete is not contained in tree."
    | some ch =>
      match ch.removeNode k with
      | .error e => .error e
      | .ok ch' =>
        if ch'.value.isNone && ch'.children.isEmpty
        then .ok (.mk (eraseChild c n.children) n.value)
        else .ok (.mk (setChild c ch' n.children) n.value)

/-- Trie.remove: KeyError when the key is absent, otherwise the updated tree
with the count decremented. -/
def Trie.remove (t : Trie α V) (key : List α) : Except String (Trie α V) :=
  match t._root.removeNode key with
  | .ok r => .ok ⟨t._alphabet, r, t._count - 1⟩
  | .error e => .error e

/-- The tree as left by a call to Trie.remove whether or not it raised: the
source raises before performing any mutation, so a failed call leaves the
tree exactly as it was. -/
def Trie.removeD (t : Trie α V) (key : List α) : Trie α V :=
  match t.remove key with
  | .ok t' => t'
  | .error _ => t

theorem Node.countSubtree_mk (cs : List (α × Node α V)) (v : Option V) :
    (Node.mk cs v).countSubtree
      = (if v.isSome then 1 else 0) + (cs.map fun p => p.2.countSubtree).sum := by
  rw [Node.countSubtree]
  rw [List.attach_map_val cs (fun p => p.2.countSubtree)]

theorem Node.wf_iff (cs : List (α × Node α V)) (v : Option V) :
    (Node.mk cs v).wf = true ↔ (childKeys cs).Nodup ∧ ∀ p ∈ cs, p.2.wf = true := by
  rw [Node.wf]
  simp [List.all_eq_true]

theorem Node.pruned_iff (cs : List (α × Node α V)) (v : Option V) :
    (Node.mk cs v).pruned = true ↔
      ∀ p ∈ cs, (p.2.value.isSome = true ∨ p.2.children ≠ []) ∧ p.2.pruned = true := by
  rw [Node.pruned]
  simp [List.all_eq_true, List.isEmpty_iff]

theorem setChild_ne_nil (c : α) (n : Node α V) (cs : List (α × Node α V)) :
    setChild c n cs ≠ [] := by
  cases cs with
  | nil => simp
  | cons p rest =>
    obtain ⟨c', m⟩ := p
    by_cases h : c' = c <;> simp [h]

theorem mem_setChild {p : α × Node α V} {c : α} {n : Node α V} {cs : List (α × Node α V)}
    (h : p ∈ setChild c n cs) : p = (c, n) ∨ p ∈ cs := by
  induction cs with
  | nil => simpa using h
  | cons q rest ih =>
    obtain ⟨c', m⟩ := q
    by_cases hc : c' = c
    · rw [setChild_cons, if_pos hc] at h
      rcases List.mem_cons.1 h with h | h
      · exact Or.inl h
      · exact Or.inr (List.mem_cons_of_mem _ h)
    · rw [setChild_cons, if_neg hc] at h
      rcases List.mem_cons.1 h with h | h
      · exact Or.inr (h ▸ List.mem_cons_self _ _)
      · rcases ih h with h | h
        · exact Or.inl h
        · exact Or.inr (List.mem_cons_of_mem _ h)

theorem eraseChild_sublist (c : α) (cs : List (α × Node α V)) :
    (eraseChild c cs).Sublist cs := by
  induction cs with
  | nil => simp
  | cons q rest ih =>
    obtain ⟨c', m⟩ := q
    by_cases hc : c' = c
    · rw [eraseChild_cons, if_pos hc]
      exact (List.sublist_cons_self _ _)
    · rw [eraseChild_cons, if_neg hc]
      exact ih.cons₂ _

theorem mem_eraseChild {p : α × Node α V} {c : α} {cs : List (α × Node α V)}
    (h : p ∈ eraseChild c cs) : p ∈ cs :=
  (eraseChild_sublist c cs).mem h

theorem childKeys_setChild_of_mem {c : α} {cs : List (α × Node α V)} (n : Node α V)
    (h : c ∈ childKeys cs) : childKeys (setChild c n cs) = childKeys cs := by
  induction cs with
  | nil => simp [childKeys] at h
  | cons q rest ih =>
    obtain ⟨c', m⟩ := q
    by_cases hc : c' = c
    · rw [setChild_cons, if_pos hc]
      simp [childKeys, hc]
    · rw [setChild_cons, if_neg hc]
      simp only [childKeys, List.map_cons, List.mem_cons] at h
      rcases h with h | h
      · exact absurd h.symm hc
      · have h2 := ih h
        simp only [childKeys] at h2
        simp only [childKeys, List.map_cons, h2]

theorem childKeys_setChild_of_not_mem {c : α} {cs : List (α × Node α V)} (n : Node α V)
    (h : c ∉ childKeys cs) : childKeys (setChild c n cs) = childKeys cs ++ [c] := by
  induction cs with
  | nil => simp [childKeys]
  | cons q rest ih =>
    obtain ⟨c', m⟩ := q
    simp only [childKeys, List.map_cons, List.mem_cons] at h
    push_neg at h
    rw [setChild_cons, if_neg (Ne.symm h.1)]
    simp only [childKeys, List.map_cons, List.cons_append, List.cons.injEq, true_and]
    exact ih h.2

theorem mem_childKeys_of_lookupChild {c : α} {cs : List (α × Node α V)} {n : Node α V}
    (h : lookupChild c cs = some n) : c ∈ childKeys cs := by
  by_contra hmem
  rw [lookupChild_eq_none_of_not_mem hmem] at h
  exact Option.noConfusion h

theorem lookupChild_isSome_iff_mem {c : α} {cs : List (α × Node α V)} :
    (lookupChild c cs).isSome = true ↔ c ∈ childKeys cs := by
  constructor
  · intro h
    obtain ⟨n, hn⟩ := Option.isSome_iff_exists.1 h
    exact mem_childKeys_of_lookupChild hn
  · intro h
    cases hl : lookupChild c cs with
    | some n => rfl
    | none =>
      induction cs with
      | nil => simp [childKeys] at h
      | cons q rest ih =>
        obtain ⟨c', m⟩ := q
        simp only [childKeys, List.map_cons, List.mem_cons] at h
        simp only [lookupChild_cons] at hl
        by_cases hc : c' = c
        · rw [if_pos hc] at hl
          exact Option.noConfusion hl
        · rw [if_neg hc] at hl
          rcases h with h | h
          · exact absurd h.symm hc
          · exact ih h hl

theorem sum_map_setChild_of_lookup (g : Node α V → Nat) {c : α} {cs : List (α × Node α V)}
    {ch : Node α V} (h : lookupChild c cs = some ch) (x : Node α V) :
    ((setChild c x cs).map fun p => g p.2).sum + g ch
      = (cs.map fun p => g p.2).sum + g x := by
  induction cs with
  | nil => simp at h
  | cons q rest ih =>
    obtain ⟨c', m⟩ := q
    simp only [lookupChild_cons] at h
    by_cases hc : c' = c
    · rw [if_pos hc] at h
      injection h with h
      subst h
      rw [setChild_cons, if_pos hc]
      simp
      omega
    · rw [if_neg hc] at h
      rw [setChild_cons, if_neg hc]
      simp only [List.map_cons, List.sum_cons]
      have := ih h
      omega

theorem sum_map_setChild_of_none (g : Node α V → Nat) {c : α} {cs : List (α × Node α V)}
    (h : lookupChild c cs = none) (x : Node α V) :
    ((setChild c x cs).map fun p => g p.2).sum = (cs.map fun p => g p.2).sum + g x := by
  induction cs with
  | nil => simp
  | cons q rest ih =>
    obtain ⟨c', m⟩ := q
    simp only [lookupChild_cons] at h
    by_cases hc : c' = c
    · rw [if_pos hc] at h
      exact Option.noConfusion h
    · rw [if_neg hc] at h
      rw [setChild_cons, if_neg hc]
      simp only [List.map_cons, List.sum_cons]
      have := ih h
      omega

theorem sum_map_eraseChild_of_lookup (g : Node α V → Nat) {c : α} {cs : List (α × Node α V)}
    {ch : Node α V} (h : lookupChild c cs = some ch) :
    ((eraseChild c cs).map fun p => g p.2).sum + g ch = (cs.map fun p => g p.2).sum := by
  induction cs with
  | nil => simp at h
  | cons q rest ih =>
    obtain ⟨c', m⟩ := q
    simp only [lookupChild_cons] at h
    by_cases hc : c' = c
    · rw [if_pos hc] at h
      injection h with h
      subst h
      rw [eraseChild_cons, if_pos hc]
      simp
      omega
    · rw [if_neg hc] at h
      rw [eraseChild_cons, if_neg hc]
      simp only [List.map_cons, List.sum_cons]
      have := ih h
      omega

theorem mem_of_lookupChild {c : α} {cs : List (α × Node α V)} {n : Node α V}
    (h : lookupChild c cs = some n) : (c, n) ∈ cs := by
  induction cs with
  | nil => simp at h
  | cons q rest ih =>
    obtain ⟨c', m⟩ := q
    simp only [lookupChild_cons] at h
    by_cases hc : c' = c
    · rw [if_pos hc] at h
      injection h with h
      subst hc
      subst h
      exact List.mem_cons_self _ _
    · rw [if_neg hc] at h
      exact List.mem_cons_of_mem _ (ih h)

@[simp] theorem Node.lookupVal_nil (n : Node α V) : n.lookupVal [] = n.value := rfl

theorem Node.lookupVal_cons (n : Node α V) (c : α) (k : List α) :
    n.lookupVal (c :: k)
      = match lookupChild c n.children with
        | none => none
        | some ch => ch.lookupVal k := by
  unfold Node.lookupVal
  rw [Node.getNode_cons]
  cases lookupChild c n.children <;> rfl

theorem Node.lookupVal_empty (k : List α) :
    (Node.mk ([] : List (α × Node α V)) none).lookupVal k = none := by
  cases k with
  | nil => rfl
  | cons c k =>
    rw [Node.lookupVal_cons]
    simp

@[simp] theorem Node.insertNode_nil (n : Node α V) (v : V) :
    n.insertNode [] v = .mk n.children (some v) := rfl

theorem Node.insertNode_cons (n : Node α V) (c : α) (k : List α) (v : V) :
    n.insertNode (c :: k) v
      = .mk (setChild c (((lookupChild c n.children).getD (.mk [] none)).insertNode k v)
          n.children) n.value := by
  cases hl : lookupChild c n.children <;> simp [Node.insertNode, hl]

theorem Node.lookupVal_insertNode_self (n : Node α V) (k : List α) (v : V) :
    (n.insertNode k v).lookupVal k = some v := by
  induction k generalizing n with
  | nil => simp
  | cons c k ih =>
    rw [Node.insertNode_cons, Node.lookupVal_cons]
    simp only [Node.children_mk, lookupChild_setChild_self]
    exact ih _

theorem Node.lookupVal_insertNode_ne (n : Node α V) {k k' : List α} (v : V) (h : k' ≠ k) :
    (n.insertNode k v).lookupVal k' = n.lookupVal k' := by
  induction k generalizing n k' with
  | nil =>
    cases k' with
    | nil => exact absurd rfl h
    | cons d k'' =>
      rw [Node.lookupVal_cons, Node.lookupVal_cons]
      simp
  | cons c k ih =>
    cases k' with
    | nil => simp [Node.insertNode_cons]
    | cons d k'' =>
      rw [Node.insertNode_cons, Node.lookupVal_cons, Node.lookupVal_cons]
      simp only [Node.children_mk]
      by_cases hdc : d = c
      · subst hdc
        rw [lookupChild_setChild_self]
        have hk : k'' ≠ k := fun he => h (by rw [he])
        cases hl : lookupChild d n.children with
        | some ch =>
          simp only [hl, Option.getD_some]
          exact ih ch hk
        | none =>
          simp only [hl, Option.getD_none]
          rw [ih _ hk, Node.lookupVal_empty]
      · rw [lookupChild_setChild_ne hdc]

theorem Node.countSubtree_insertNode (n : Node α V) (k : List α) (v : V) :
    (n.insertNode k v).countSubtree
      = n.countSubtree + (if (n.lookupVal k).isSome then 0 else 1) := by
  induction k generalizing n with
  | nil =>
    obtain ⟨cs, val⟩ := n
    rw [Node.insertNode_nil, Node.countSubtree_mk, Node.countSubtree_mk]
    simp only [Node.children_mk, Node.value_mk, Node.lookupVal_nil]
    cases val <;> simp <;> omega
  | cons c k ih =>
    obtain ⟨cs, val⟩ := n
    cases hl : lookupChild c cs with
    | some ch =>
      rw [Node.insertNode_cons, Node.countSubtree_mk, Node.countSubtree_mk,
        Node.lookupVal_cons]
      simp only [Node.children_mk, Node.value_mk, hl, Option.getD_some]
      have hs := sum_map_setChild_of_lookup Node.countSubtree hl (ch.insertNode k v)
      have hi := ih ch
      omega
    | none =>
      rw [Node.insertNode_cons, Node.countSubtree_mk, Node.countSubtree_mk,
        Node.lookupVal_cons]
      simp only [Node.children_mk, Node.value_mk, hl, Option.getD_none]
      have hs := sum_map_setChild_of_none Node.countSubtree hl
        ((Node.mk [] none).insertNode k v)
      have hi := ih (Node.mk [] none)
      rw [Node.countSubtree_mk] at hi
      simp only [Node.lookupVal_empty, Option.isSome_none, List.map_nil,
        List.sum_nil] at hi
      norm_num at hi ⊢
      omega

theorem Node.wf_empty : (Node.mk ([] : List (α × Node α V)) none).wf = true := by
  rw [Node.wf_iff]
  simp [childKeys]

theorem Node.wf_insertNode {n : Node α V} (k : List α) (v : V) (hw : n.wf = true) :
    (n.insertNode k v).wf = true := by
  induction k generalizing n with
  | nil =>
    obtain ⟨cs, val⟩ := n
    rw [Node.insertNode_nil]
    rw [Node.wf_iff] at hw ⊢
    simpa using hw
  | cons c k ih =>
    obtain ⟨cs, val⟩ := n
    rw [Node.wf_iff] at hw
    rw [Node.insertNode_cons, Node.wf_iff]
    simp only [Node.children_mk]
    cases hl : lookupChild c cs with
    | some ch =>
      simp only [hl, Option.getD_some]
      refine ⟨?_, ?_⟩
      · rw [childKeys_setChild_of_mem _ (mem_childKeys_of_lookupChild hl)]
        exact hw.1
      · intro p hp
        rcases mem_setChild hp with rfl | hp
        · exact ih (hw.2 _ (mem_of_lookupChild hl))
        · exact hw.2 p hp
    | none =>
      simp only [hl, Option.getD_none]
      have hcm : c ∉ childKeys cs := by
        intro hm
        rw [← lookupChild_isSome_iff_mem] at hm
        rw [hl] at hm
        simp at hm
      refine ⟨?_, ?_⟩
      · rw [childKeys_setChild_of_not_mem _ hcm]
        simp [List.nodup_append, hw.1, hcm]
      · intro p hp
        rcases mem_setChild hp with rfl | hp
        · exact ih Node.wf_empty
        · exact hw.2 p hp

theorem Node.pruned_empty : (Node.mk ([] : List (α × Node α V)) none).pruned = true := by
  rw [Node.pruned_iff]
  simp

theorem Node.insertNode_alive (n : Node α V) (k : List α) (v : V) :
    (n.insertNode k v).value.isSome = true ∨ (n.insertNode k v).children ≠ [] := by
  cases k with
  | nil => left; simp
  | cons c k =>
    right
    rw [Node.insertNode_cons]
    simp [setChild_ne_nil]

theorem Node.pruned_insertNode {n : Node α V} (k : List α) (v : V) (hp : n.pruned = true) :
    (n.insertNode k v).pruned = true := by
  induction k generalizing n with
  | nil =>
    obtain ⟨cs, val⟩ := n
    rw [Node.insertNode_nil]
    rw [Node.pruned_iff] at hp ⊢
    simpa using hp
  | cons c k ih =>
    obtain ⟨cs, val⟩ := n
    rw [Node.pruned_iff] at hp
    rw [Node.insertNode_cons, Node.pruned_iff]
    simp only [Node.children_mk]
    intro p hpm
    rcases mem_setChild hpm with rfl | hpm
    · refine ⟨Node.insertNode_alive _ k v, ?_⟩
      cases hl : lookupChild c cs with
      | some ch =>
        simp only [hl, Option.getD_some]
        exact ih (hp _ (mem_of_lookupChild hl)).2
      | none =>
        simp only [hl, Option.getD_none]
        exact ih Node.pruned_empty
    · exact hp p hpm

theorem Node.lookupVal_dead {n : Node α V} (hv : n.value = none) (hc : n.children = [])
    (k : List α) : n.lookupVal k = none := by
  obtain ⟨cs, v⟩ := n
  simp only [Node.children_mk, Node.value_mk] at hv hc
  subst hv
  subst hc
  exact Node.lookupVal_empty k

theorem Node.countSubtree_dead {n : Node α V} (hv : n.value = none)
    (hc : n.children = []) : n.countSubtree = 0 := by
  obtain ⟨cs, v⟩ := n
  simp only [Node.children_mk, Node.value_mk] at hv hc
  subst hv
  subst hc
  simp [Node.countSubtree_mk]

theorem Node.removeNode_nil_inversion {n r : Node α V}
    (h : n.removeNode [] = .ok r) :
    n.value.isSome = true ∧ r = .mk n.children none := by
  cases hv : n.value with
  | some v =>
    simp only [Node.removeNode, hv] at h
    injection h with h
    exact ⟨rfl, h.symm⟩
  | none => simp [Node.removeNode, hv] at h

theorem Node.removeNode_cons_inversion {n r : Node α V} {c : α} {k : List α}
    (h : n.removeNode (c :: k) = .ok r) :
    ∃ ch ch', lookupChild c n.children = some ch ∧ ch.removeNode k = .ok ch' ∧
      (((ch'.value.isNone && ch'.children.isEmpty) = true
          ∧ r = .mk (eraseChild c n.children) n.value)
       ∨ ((ch'.value.isNone && ch'.children.isEmpty) = false
          ∧ r = .mk (setChild c ch' n.children) n.value)) := by
  cases hl : lookupChild c n.children with
  | none => simp [Node.removeNode, hl] at h
  | some ch =>
    cases hr : ch.removeNode k with
    | error e => simp [Node.removeNode, hl, hr] at h
    | ok ch' =>
      refine ⟨ch, ch', rfl, hr, ?_⟩
      cases hd : (ch'.value.isNone && ch'.children.isEmpty) with
      | true =>
        left
        refine ⟨rfl, ?_⟩
        simp only [Node.removeNode, hl, hr, hd, if_true] at h
        injection h with h
        exact h.symm
      | false =>
        right
        refine ⟨rfl, ?_⟩
        simp only [Node.removeNode, hl, hr, hd, Bool.false_eq_true, if_false] at h
        injection h with h
        exact h.symm

theorem Node.removeNode_error_of_none {n : Node α V} {k : List α}
    (h : n.lookupVal k = none) :
    n.removeNode k = .error "Word to delete is not contained in tree." := by
  induction k generalizing n with
  | nil =>
    rw [Node.lookupVal_nil] at h
    simp [Node.removeNode, h]
  | cons c k ih =>
    cases hl : lookupChild c n.children with
    | none => simp [Node.removeNode, hl]
    | some ch =>
      rw [Node.lookupVal_cons, hl] at h
      simp [Node.removeNode, hl, ih h]

theorem Node.removeNode_ok_of_isSome {n : Node α V} {k : List α}
    (h : (n.lookupVal k).isSome = true) : ∃ r, n.removeNode k = .ok r := by
  induction k generalizing n with
  | nil =>
    cases hv : n.value with
    | some v => exact ⟨.mk n.children none, by simp [Node.removeNode, hv]⟩
    | none =>
      rw [Node.lookupVal_nil, hv] at h
      simp at h
  | cons c k ih =>
    cases hl : lookupChild c n.children with
    | none =>
      rw [Node.lookupVal_cons, hl] at h
      simp at h
    | some ch =>
      rw [Node.lookupVal_cons, hl] at h
      obtain ⟨r', hr⟩ := ih h
      cases hd : (r'.value.isNone && r'.children.isEmpty) with
      | true =>
        exact ⟨.mk (eraseChild c n.children) n.value, by simp [Node.removeNode, hl, hr, hd]⟩
      | false =>
        exact ⟨.mk (setChild c r' n.children) n.value, by simp [Node.removeNode, hl, hr, hd]⟩

theorem Node.removeNode_isOk_iff {n : Node α V} {k : List α} :
    (∃ r, n.removeNode k = .ok r) ↔ (n.lookupVal k).isSome = true := by
  constructor
  · intro ⟨r, hr⟩
    cases hv : n.lookupVal k with
    | some v => simp [hv]
    | none =>
      rw [Node.removeNode_error_of_none hv] at hr
      exact Except.noConfusion hr
  · exact Node.removeNode_ok_of_isSome

theorem Node.removeNode_lookupVal_self {n r : Node α V} {k : List α}
    (h : n.removeNode k = .ok r) (hw : n.wf = true) : r.lookupVal k = none := by
  induction k generalizing n r with
  | nil =>
    obtain ⟨-, rfl⟩ := Node.removeNode_nil_inversion h
    simp
  | cons c k ih =>
    obtain ⟨ch, ch', hl, hr, hcase⟩ := Node.removeNode_cons_inversion h
    obtain ⟨cs, v⟩ := n
    rw [Node.wf_iff] at hw
    simp only [Node.children_mk] at hl hcase
    rcases hcase with ⟨hd, rfl⟩ | ⟨hd, rfl⟩
    · rw [Node.lookupVal_cons]
      simp only [Node.children_mk]
      rw [lookupChild_eraseChild_self hw.1]
    · rw [Node.lookupVal_cons]
      simp only [Node.children_mk]
      rw [lookupChild_setChild_self]
      exact ih hr (hw.2 _ (mem_of_lookupChild hl))

theorem Node.removeNode_lookupVal_frame {n r : Node α V} {k : List α}
    (h : n.removeNode k = .ok r) (hw : n.wf = true) :
    ∀ k', k' ≠ k → r.lookupVal k' = n.lookupVal k' := by
  induction k generalizing n r with
  | nil =>
    obtain ⟨-, rfl⟩ := Node.removeNode_nil_inversion h
    intro k' hk'
    cases k' with
    | nil => exact absurd rfl hk'
    | cons d k'' =>
      rw [Node.lookupVal_cons, Node.lookupVal_cons]
      simp only [Node.children_mk]
  | cons c k ih =>
    obtain ⟨ch, ch', hl, hr, hcase⟩ := Node.removeNode_cons_inversion h
    obtain ⟨cs, v⟩ := n
    rw [Node.wf_iff] at hw
    simp only [Node.children_mk] at hl hcase
    have hwch : ch.wf = true := hw.2 _ (mem_of_lookupChild hl)
    intro k' hk'
    rcases hcase with ⟨hd, rfl⟩ | ⟨hd, rfl⟩
    · cases k' with
      | nil => simp
      | cons d k'' =>
        rw [Node.lookupVal_cons, Node.lookupVal_cons]
        simp only [Node.children_mk]
        by_cases hdc : d = c
        · subst hdc
          rw [lookupChild_eraseChild_self hw.1, hl]
          rw [Bool.and_eq_true, Option.isNone_iff_eq_none, List.isEmpty_iff] at hd
          have hdead := Node.lookupVal_dead hd.1 hd.2 k''
          have hkk : k'' ≠ k := fun he => hk' (by rw [he])
          have hfr : ch'.lookupVal k'' = ch.lookupVal k'' := ih hr hwch k'' hkk
          show (none : Option V) = ch.lookupVal k''
          rw [← hfr, hdead]
        · rw [lookupChild_eraseChild_ne hdc]
    · cases k' with
      | nil => simp
      | cons d k'' =>
        rw [Node.lookupVal_cons, Node.lookupVal_cons]
        simp only [Node.children_mk]
        by_cases hdc : d = c
        · subst hdc
          rw [lookupChild_setChild_self, hl]
          have hkk : k'' ≠ k := fun he => hk' (by rw [he])
          exact ih hr hwch k'' hkk
        · rw [lookupChild_setChild_ne hdc]

theorem Node.removeNode_countSubtree {n r : Node α V} {k : List α}
    (h : n.removeNode k = .ok r) : r.countSubtree + 1 = n.countSubtree := by
  induction k generalizing n r with
  | nil =>
    obtain ⟨hocc, rfl⟩ := Node.removeNode_nil_inversion h
    obtain ⟨cs, v⟩ := n
    rw [Node.countSubtree_mk, Node.countSubtree_mk]
    simp only [Node.children_mk, Node.value_mk] at hocc ⊢
    rw [hocc]
    simp
    omega
  | cons c k ih =>
    obtain ⟨ch, ch', hl, hr, hcase⟩ := Node.removeNode_cons_inversion h
    obtain ⟨cs, v⟩ := n
    simp only [Node.children_mk, Node.value_mk] at hl hcase
    have hi := ih hr
    rcases hcase with ⟨hd, rfl⟩ | ⟨hd, rfl⟩
    · rw [Bool.and_eq_true, Option.isNone_iff_eq_none, List.isEmpty_iff] at hd
      have hz := Node.countSubtree_dead hd.1 hd.2
      have hs := sum_map_eraseChild_of_lookup Node.countSubtree hl
      rw [Node.countSubtree_mk, Node.countSubtree_mk]
      omega
    · have hs := sum_map_setChild_of_lookup Node.countSubtree hl ch'
      rw [Node.countSubtree_mk, Node.countSubtree_mk]
      omega

theorem Node.removeNode_wf {n r : Node α V} {k : List α}
    (h : n.removeNode k = .ok r) (hw : n.wf = true) : r.wf = true := by
  induction k generalizing n r with
  | nil =>
    obtain ⟨-, rfl⟩ := Node.removeNode_nil_inversion h
    obtain ⟨cs, v⟩ := n
    rw [Node.wf_iff] at hw
    simp only [Node.children_mk]
    rw [Node.wf_iff]
    exact hw
  | cons c k ih =>
    obtain ⟨ch, ch', hl, hr, hcase⟩ := Node.removeNode_cons_inversion h
    obtain ⟨cs, v⟩ := n
    simp only [Node.children_mk, Node.value_mk] at hl hcase
    rw [Node.wf_iff] at hw
    rcases hcase with ⟨hd, rfl⟩ | ⟨hd, rfl⟩
    · rw [Node.wf_iff]
      refine ⟨?_, ?_⟩
      · exact List.Nodup.sublist ((eraseChild_sublist c cs).map Prod.fst) hw.1
      · intro p hp
        exact hw.2 p (mem_eraseChild hp)
    · rw [Node.wf_iff]
      refine ⟨?_, ?_⟩
      · rw [childKeys_setChild_of_mem _ (mem_childKeys_of_lookupChild hl)]
        exact hw.1
      · intro p hp
        rcases mem_setChild hp with rfl | hp
        · exact ih hr (hw.2 _ (mem_of_lookupChild hl))
        · exact hw.2 p hp

theorem Node.removeNode_pruned {n r : Node α V} {k : List α}
    (h : n.removeNode k = .ok r) (hp : n.pruned = true) : r.pruned = true := by
  induction k generalizing n r with
  | nil =>
    obtain ⟨-, rfl⟩ := Node.removeNode_nil_inversion h
    obtain ⟨cs, v⟩ := n
    rw [Node.pruned_iff] at hp
    simp only [Node.children_mk]
    rw [Node.pruned_iff]
    exact hp
  | cons c k ih =>
    obtain ⟨ch, ch', hl, hr, hcase⟩ := Node.removeNode_cons_inversion h
    obtain ⟨cs, v⟩ := n
    simp only [Node.children_mk, Node.value_mk] at hl hcase
    rw [Node.pruned_iff] at hp
    rcases hcase with ⟨hd, rfl⟩ | ⟨hd, rfl⟩
    · rw [Node.pruned_iff]
      intro p hpm
      exact hp p (mem_eraseChild hpm)
    · rw [Node.pruned_iff]
      intro p hpm
      rcases mem_setChild hpm with rfl | hpm
      · refine ⟨?_, ih hr (hp _ (mem_of_lookupChild hl)).2⟩
        by_cases hv : ch'.value.isSome = true
        · exact Or.inl hv
        · refine Or.inr fun hcnil => ?_
          have h1 : ch'.value.isNone = true := by
            cases hvv : ch'.value
            · rfl
            · rw [hvv] at hv
              simp at hv
          rw [h1, hcnil] at hd
          simp at hd
      · exact hp p hpm

theorem Trie.contains_eq (t : Trie α V) (k : List α) :
    t.contains k = (t._root.lookupVal k).isSome := by
  unfold Trie.contains Trie._get_node Node.lookupVal
  cases t._root.getNode k with
  | none => rfl
  | some n => cases n.value <;> rfl

theorem Trie.get_eq (t : Trie α V) (k : List α) (d : V) :
    t.get k d = (t._root.lookupVal k).getD d := by
  unfold Trie.get Trie._get_node Node.lookupVal
  cases t._root.getNode k with
  | none => rfl
  | some n => cases n.value <;> rfl

theorem Trie.getItem_eq (t : Trie α V) (k : List α) :
    t.getItem k
      = match t._root.lookupVal k with
        | some v => .ok v
        | none => .error "Tree does not contain a value for the given key." := by
  unfold Trie.getItem Trie._get_node Node.lookupVal
  cases t._root.getNode k with
  | none => rfl
  | some n => cases n.value <;> rfl

theorem Trie.contains_false_iff (t : Trie α V) (k : List α) :
    t.contains k = false ↔ t._root.lookupVal k = none := by
  rw [Trie.contains_eq]
  cases t._root.lookupVal k <;> simp

/-- The internal invariants of a tree: dict well-formedness, I2 of the spec
(the cached count equals the recomputed occupied-node count) and I1 of the
spec (no reachable unoccupied childless non-root node). -/
def Trie.Inv (t : Trie α V) : Prop :=
  t._root.wf = true ∧ t._count = t._root.countSubtree ∧ t._root.pruned = true

/-- C8: immediately after insert(t, k, v) the tree contains k and get returns
v whatever the default (so insert overwrote any prior value at k), and
inserting the same key a second time leaves len unchanged from after the
first insert. -/
theorem C8_insert_roundtrip_idempotent (t : Trie α V) (k : List α) (v : V) (d : V) :
    (t.insert k v).get k d = v
    ∧ (t.insert k v).contains k = true
    ∧ ((t.insert k v).insert k v).len = (t.insert k v).len := by
  have hself := Node.lookupVal_insertNode_self t._root k v
  have hc : (t.insert k v).contains k = true := by
    simp [Trie.contains_eq, Trie.insert, hself]
  refine ⟨?_, hc, ?_⟩
  · simp [Trie.get_eq, Trie.insert, hself]
  · show (if (t.insert k v).contains k = true then (t.insert k v)._count
        else (t.insert k v)._count + 1) = (t.insert k v)._count
    rw [hc]
    simp

/-- C10: a stored Python None is a real value, fully distinguishable from the
not-occupied sentinel (modelled by instantiating the value type with an
option type and storing its `none`): after insert(t, k, None) the key is
contained, lookup_required returns None without raising, get returns the
stored None rather than the default, and len counts k. -/
theorem C10_none_is_storable_value {β : Type} (t : Trie α (Option β)) (k : List α)
    (d : Option β) :
    (t.insert k none).contains k = true
    ∧ (t.insert k none).getItem k = .ok none
    ∧ (t.insert k none).get k d = none
    ∧ (t.insert k none).len = (if t.contains k then t.len else t.len + 1) := by
  have hself := Node.lookupVal_insertNode_self t._root k (none : Option β)
  refine ⟨?_, ?_, ?_, rfl⟩
  · simp [Trie.contains_eq, Trie.insert, hself]
  · simp [Trie.getItem_eq, Trie.insert, hself]
  · simp [Trie.get_eq, Trie.insert, hself]

/-- C3: remove and lookup_required (__getitem__) fail with KeyError exactly
when the key is absent, i.e. the path is missing or the terminal node is
unoccupied (contains is false); and a failed remove leaves the tree, hence
its len, keys, values and node structure, completely unchanged. -/
theorem C3_keynotfound_iff_absent_and_unchanged (t : Trie α V) (k : List α) :
    ((∃ e, t.remove k = .error e) ↔ t.contains k = false)
    ∧ ((∃ e, t.getItem k = .error e) ↔ t.contains k = false)
    ∧ (t.contains k = false → t.removeD k = t) := by
  refine ⟨?_, ?_, ?_⟩
  · constructor
    · rintro ⟨e, he⟩
      rw [Trie.contains_false_iff]
      unfold Trie.remove at he
      cases hrn : t._root.removeNode k with
      | ok r => simp [hrn] at he
      | error e' =>
        by_contra hno
        have hsome : (t._root.lookupVal k).isSome = true := by
          cases hv : t._root.lookupVal k
          · exact absurd hv hno
          · rfl
        obtain ⟨r, hr⟩ := Node.removeNode_ok_of_isSome hsome
        rw [hr] at hrn
        exact Except.noConfusion hrn
    · intro hc
      rw [Trie.contains_false_iff] at hc
      refine ⟨"Word to delete is not contained in tree.", ?_⟩
      unfold Trie.remove
      rw [Node.removeNode_error_of_none hc]
  · rw [Trie.getItem_eq]
    constructor
    · rintro ⟨e, he⟩
      rw [Trie.contains_false_iff]
      cases hv : t._root.lookupVal k
      · rfl
      · simp [hv] at he
    · intro hc
      rw [Trie.contains_false_iff] at hc
      rw [hc]
      exact ⟨_, rfl⟩
  · intro hc
    rw [Trie.contains_false_iff] at hc
    unfold Trie.removeD Trie.remove
    rw [Node.removeNode_error_of_none hc]

mutual
/-- The lock-step walk of Trie.update, on nodes.  The source pushes the pair
of roots and, for each popped pair (own, other): when other's node is
occupied it copies other's value into own (counting 1 when own was still
unoccupied), and for every child of other's node it ensures a corresponding
child exists in own (freshly created unoccupied when missing) and walks into
the pair.  Distinct pairs touch distinct positions, so processing the pairs
recursively (children left to right, as the source's creation order) yields
the same final tree; the Nat component is the total count adjustment. -/
def Node.updateNode : Node α V → Node α V → Node α V × Nat
  | n, .mk ocs ov =>
    let inc := if ov.isSome && n.value.isNone then 1 else 0
    let r := updateChildren n.children ocs
    (.mk r.1 (if ov.isSome then ov else n.value), inc + r.2)
termination_by n o => sizeOf o

/-- The per-child part of the walk of Trie.update: ensure a child of self
exists for the other-child's symbol and recurse into the pair. -/
def updateChildren : List (α × Node α V) → List (α × Node α V) → List (α × Node α V) × Nat
  | cs, [] => (cs, 0)
  | cs, (c, ochild) :: rest =>
    let r1 := Node.updateNode ((lookupChild c cs).getD (.mk [] none)) ochild
    let r2 := updateChildren (setChild c r1.1 cs) rest
    (r2.1, r1.2 + r2.2)
termination_by cs l => sizeOf l
end

/-- Trie.update: in-place union, walking self and other in lock-step from
their roots; other's values win, and the cached count is adjusted by the
number of newly occupied nodes. -/
def Trie.update (t o : Trie α V) : Trie α V :=
  ⟨t._alphabet, (t._root.updateNode o._root).1, t._count + (t._root.updateNode o._root).2⟩

/-- Trie.union: a brand-new tree with self's alphabet, updated with self and
then with other (other's values win on collisions). -/
def Trie.union (t o : Trie α V) : Trie α V :=
  ((Trie.init t._alphabet).update t).update o

/-- Nested induction on a node through its children. -/
def Node.childrenInduction {motive : Node α V → Prop}
    (h : ∀ cs v, (∀ p ∈ cs, motive p.2) → motive (.mk cs v)) : ∀ n, motive n
  | .mk cs v => h cs v fun p hp => Node.childrenInduction h p.2
decreasing_by
  obtain ⟨c, m⟩ := p
  have h1 := List.sizeOf_lt_of_mem hp
  simp at h1 ⊢
  omega

theorem Node.updateNode_def (n : Node α V) (ocs : List (α × Node α V)) (ov : Option V) :
    n.updateNode (.mk ocs ov)
      = (.mk (updateChildren n.children ocs).1 (if ov.isSome then ov else n.value),
         (if ov.isSome && n.value.isNone then 1 else 0)
           + (updateChildren n.children ocs).2) := by
  rw [Node.updateNode]

theorem updateChildren_nil (cs : List (α × Node α V)) : updateChildren cs [] = (cs, 0) := by
  rw [updateChildren]

theorem updateChildren_cons (cs : List (α × Node α V)) (c : α) (och : Node α V)
    (rest : List (α × Node α V)) :
    updateChildren cs ((c, och) :: rest)
      = ((updateChildren
            (setChild c (((lookupChild c cs).getD (.mk [] none)).updateNode och).1 cs)
            rest).1,
         (((lookupChild c cs).getD (.mk [] none)).updateNode och).2
           + (updateChildren
               (setChild c (((lookupChild c cs).getD (.mk [] none)).updateNode och).1 cs)
               rest).2) := by
  rw [updateChildren]

theorem lookupChild_updateChildren {ocs : List (α × Node α V)}
    (hn : (childKeys ocs).Nodup) (cs : List (α × Node α V)) (d : α) :
    lookupChild d (updateChildren cs ocs).1
      = match lookupChild d ocs with
        | some och => some ((((lookupChild d cs).getD (.mk [] none))).updateNode och).1
        | none => lookupChild d cs := by
  induction ocs generalizing cs with
  | nil => simp [updateChildren_nil]
  | cons q rest ih =>
    obtain ⟨c, och⟩ := q
    simp only [childKeys, List.map_cons, List.nodup_cons] at hn
    rw [updateChildren_cons]
    by_cases hdc : d = c
    · subst hdc
      have hrn : lookupChild d rest = none := lookupChild_eq_none_of_not_mem hn.1
      rw [ih hn.2, hrn]
      simp [lookupChild_setChild_self]
    · rw [ih hn.2, lookupChild_setChild_ne hdc]
      simp [Ne.symm hdc]

theorem Node.lookupVal_updateNode {o : Node α V} (hwo : o.wf = true) (n : Node α V)
    (k : List α) :
    ((n.updateNode o).1).lookupVal k = (o.lookupVal k).or (n.lookupVal k) := by
  induction k generalizing n o with
  | nil =>
    obtain ⟨ocs, ov⟩ := o
    rw [Node.updateNode_def]
    cases ov <;> simp
  | cons d k ih =>
    obtain ⟨ocs, ov⟩ := o
    rw [Node.wf_iff] at hwo
    rw [Node.updateNode_def]
    rw [Node.lookupVal_cons]
    simp only [Node.children_mk]
    rw [lookupChild_updateChildren hwo.1]
    cases hl : lookupChild d ocs with
    | some och =>
      have hwoch : och.wf = true := hwo.2 _ (mem_of_lookupChild hl)
      have hR : (Node.mk ocs ov).lookupVal (d :: k) = och.lookupVal k := by
        rw [Node.lookupVal_cons]
        simp only [Node.children_mk, hl]
      have hN : n.lookupVal (d :: k)
          = (((lookupChild d n.children).getD (.mk [] none))).lookupVal k := by
        rw [Node.lookupVal_cons]
        cases hc : lookupChild d n.children
        · simp [Node.lookupVal_empty]
        · simp
      rw [hR, hN]
      exact ih hwoch _
    | none =>
      have hR : (Node.mk ocs ov).lookupVal (d :: k) = none := by
        rw [Node.lookupVal_cons]
        simp only [Node.children_mk, hl]
      rw [hR, ← Node.lookupVal_cons]
      simp


theorem countSubtree_updateChildren
    (ocs : List (α × Node α V))
    (hrec : ∀ p ∈ ocs, ∀ n : Node α V,
      ((n.updateNode p.2).1).countSubtree = n.countSubtree + (n.updateNode p.2).2)
    (cs : List (α × Node α V)) :
    ((updateChildren cs ocs).1.map fun p => p.2.countSubtree).sum
      = (cs.map fun p => p.2.countSubtree).sum + (updateChildren cs ocs).2 := by
  induction ocs generalizing cs with
  | nil => simp [updateChildren_nil]
  | cons q rest ih =>
    obtain ⟨c, och⟩ := q
    rw [updateChildren_cons]
    have hx := hrec (c, och) (List.mem_cons_self _ _)
    have ihr := ih (fun p hp => hrec p (List.mem_cons_of_mem _ hp))
      (setChild c (((lookupChild c cs).getD (.mk [] none)).updateNode och).1 cs)
    cases hl : lookupChild c cs with
    | some ch =>
      have hs := sum_map_setChild_of_lookup Node.countSubtree hl
        (((some ch).getD (.mk [] none)).updateNode och).1
      have hcx := hx ch
      rw [hl] at ihr
      dsimp only at ihr hs hcx ⊢
      simp only [Option.getD_some] at ihr hs ⊢
      omega
    | none =>
      have hs := sum_map_setChild_of_none Node.countSubtree hl
        (((none : Option (Node α V)).getD (.mk [] none)).updateNode och).1
      have hcx := hx (Node.mk [] none)
      rw [Node.countSubtree_mk] at hcx
      rw [hl] at ihr
      dsimp only at ihr hs hcx ⊢
      simp only [Option.getD_none] at ihr hs ⊢
      simp only [List.map_nil, List.sum_nil, Option.isSome_none] at hcx
      norm_num at hcx
      omega

theorem Node.countSubtree_updateNode (o : Node α V) :
    ∀ n : Node α V, ((n.updateNode o).1).countSubtree = n.countSubtree + (n.updateNode o).2 := by
  induction o using Node.childrenInduction with
  | h ocs ov ih =>
    intro n
    obtain ⟨cs, v⟩ := n
    rw [Node.updateNode_def]
    rw [Node.countSubtree_mk, Node.countSubtree_mk]
    simp only [Node.children_mk, Node.value_mk]
    have hc := countSubtree_updateChildren ocs (fun p hp => ih p hp) cs
    cases hov : ov <;> cases hv : v <;> simp <;> omega

theorem wf_updateChildren
    (ocs : List (α × Node α V))
    (hrec : ∀ p ∈ ocs, ∀ n : Node α V, n.wf = true → ((n.updateNode p.2).1).wf = true)
    (cs : List (α × Node α V)) (hk : (childKeys cs).Nodup)
    (hm : ∀ p ∈ cs, p.2.wf = true) :
    (childKeys (updateChildren cs ocs).1).Nodup
      ∧ ∀ p ∈ (updateChildren cs ocs).1, p.2.wf = true := by
  induction ocs generalizing cs with
  | nil =>
    rw [updateChildren_nil]
    exact ⟨hk, hm⟩
  | cons q rest ih =>
    obtain ⟨c, och⟩ := q
    rw [updateChildren_cons]
    have hXwf : (((lookupChild c cs).getD (.mk [] none)).updateNode och).1.wf = true := by
      apply hrec (c, och) (List.mem_cons_self _ _)
      cases hl : lookupChild c cs with
      | some ch => simpa using hm (c, ch) (mem_of_lookupChild hl)
      | none => simpa using Node.wf_empty
    have hk2 : (childKeys (setChild c
        (((lookupChild c cs).getD (.mk [] none)).updateNode och).1 cs)).Nodup := by
      by_cases hmem : c ∈ childKeys cs
      · rw [childKeys_setChild_of_mem _ hmem]
        exact hk
      · rw [childKeys_setChild_of_not_mem _ hmem]
        simp [List.nodup_append, hk, hmem]
    have hm2 : ∀ p ∈ setChild c
        (((lookupChild c cs).getD (.mk [] none)).updateNode och).1 cs, p.2.wf = true := by
      intro p hp
      rcases mem_setChild hp with rfl | hp
      · exact hXwf
      · exact hm p hp
    exact ih (fun p hp => hrec p (List.mem_cons_of_mem _ hp)) _ hk2 hm2

theorem Node.wf_updateNode (o : Node α V) :
    ∀ n : Node α V, n.wf = true → ((n.updateNode o).1).wf = true := by
  induction o using Node.childrenInduction with
  | h ocs ov ih =>
    intro n hw
    obtain ⟨cs, v⟩ := n
    rw [Node.wf_iff] at hw
    rw [Node.updateNode_def, Node.wf_iff]
    simp only [Node.children_mk]
    exact wf_updateChildren ocs (fun p hp => ih p hp) cs hw.1 hw.2

theorem updateChildren_fst_ne_nil {ocs cs : List (α × Node α V)} (h : cs ≠ []) :
    (updateChildren cs ocs).1 ≠ [] := by
  induction ocs generalizing cs with
  | nil =>
    rw [updateChildren_nil]
    exact h
  | cons q rest ih =>
    obtain ⟨c, och⟩ := q
    rw [updateChildren_cons]
    exact ih (setChild_ne_nil _ _ _)

theorem Node.alive_updateNode {n o : Node α V}
    (h : (n.value.isSome = true ∨ n.children ≠ [])
      ∨ (o.value.isSome = true ∨ o.children ≠ [])) :
    ((n.updateNode o).1).value.isSome = true ∨ ((n.updateNode o).1).children ≠ [] := by
  obtain ⟨ocs, ov⟩ := o
  rw [Node.updateNode_def]
  simp only [Node.children_mk, Node.value_mk] at h ⊢
  rcases h with h | h
  · rcases h with h | h
    · left
      cases hov : ov
      · simpa [hov] using h
      · simp [hov]
    · right
      exact updateChildren_fst_ne_nil h
  · rcases h with h | h
    · left
      cases hov : ov
      · rw [hov] at h
        simp at h
      · simp [hov]
    · right
      cases ocs with
      | nil => exact absurd rfl h
      | cons q rest =>
        obtain ⟨c, och⟩ := q
        rw [updateChildren_cons]
        exact updateChildren_fst_ne_nil (setChild_ne_nil _ _ _)

theorem pruned_updateChildren
    (ocs : List (α × Node α V))
    (hrec : ∀ p ∈ ocs, ∀ n : Node α V,
      n.pruned = true → p.2.pruned = true → ((n.updateNode p.2).1).pruned = true)
    (hocs : ∀ p ∈ ocs, (p.2.value.isSome = true ∨ p.2.children ≠ []) ∧ p.2.pruned = true)
    (cs : List (α × Node α V))
    (hcs : ∀ p ∈ cs, (p.2.value.isSome = true ∨ p.2.children ≠ []) ∧ p.2.pruned = true) :
    ∀ p ∈ (updateChildren cs ocs).1,
      (p.2.value.isSome = true ∨ p.2.children ≠ []) ∧ p.2.pruned = true := by
  induction ocs generalizing cs with
  | nil =>
    rw [updateChildren_nil]
    exact hcs
  | cons q rest ih =>
    obtain ⟨c, och⟩ := q
    rw [updateChildren_cons]
    apply ih (fun p hp => hrec p (List.mem_cons_of_mem _ hp))
      (fun p hp => hocs p (List.mem_cons_of_mem _ hp))
    intro p hp
    rcases mem_setChild hp with rfl | hp
    · have hh := hocs (c, och) (List.mem_cons_self _ _)
      cases hl : lookupChild c cs with
      | some ch =>
        simp only [hl, Option.getD_some]
        have hch := hcs (c, ch) (mem_of_lookupChild hl)
        exact ⟨Node.alive_updateNode (Or.inl hch.1),
          hrec (c, och) (List.mem_cons_self _ _) ch hch.2 hh.2⟩
      | none =>
        simp only [hl, Option.getD_none]
        exact ⟨Node.alive_updateNode (Or.inr hh.1),
          hrec (c, och) (List.mem_cons_self _ _) _ Node.pruned_empty hh.2⟩
    · exact hcs p hp

theorem Node.pruned_updateNode (o : Node α V) :
    ∀ n : Node α V, n.pruned = true → o.pruned = true → ((n.updateNode o).1).pruned = true := by
  induction o using Node.childrenInduction with
  | h ocs ov ih =>
    intro n hpn hpo
    obtain ⟨cs, v⟩ := n
    rw [Node.pruned_iff] at hpn hpo
    rw [Node.updateNode_def, Node.pruned_iff]
    exact pruned_updateChildren ocs (fun p hp => ih p hp) hpo cs hpn


/-- The walk of Trie._iterate_nodes from a node: the source pops a
(node, word) pair from a stack, yields it when the node is occupied, then
pushes the node's children in reversed alphabet order so that they pop in
alphabet order; a popped child's whole subtree is handled before the next
sibling, i.e. pre-order depth-first traversal in alphabet order, which this
recursion produces directly.  Only symbols of the alphabet are looked up, so
children bound to symbols outside the alphabet are never visited. -/
def Node.iterNodes (alphabet : List α) (n : Node α V) (pre : List α) :
    List (Node α V × List α) :=
  (match n.value with
   | some _ => [(n, pre)]
   | none => [])
  ++ alphabet.flatMap fun c =>
      match h : lookupChild c n.children with
      | some ch => ch.iterNodes alphabet (pre ++ [c])
      | none => []
termination_by sizeOf n
decreasing_by exact sizeOf_lookupChild_node h

/-- Trie.keys: resolve the node at the prefix (absent prefix yields the empty
sequence, no error), then the words of the occupied descendants, relative to
the prefix. -/
def Trie.keys (t : Trie α V) (pre : List α) : List (List α) :=
  match t._get_node pre with
  | none => []
  | some n => (n.iterNodes t._alphabet []).map Prod.snd

/-- Trie.values: the stored values in iteration order (every yielded node is
occupied, so the filterMap keeps one value per yielded node). -/
def Trie.values (t : Trie α V) (pre : List α) : List V :=
  match t._get_node pre with
  | none => []
  | some n => (n.iterNodes t._alphabet []).filterMap fun p => p.1.value

/-- Trie.items: suffix-word/value pairs in iteration order (every yielded
node is occupied, so the filterMap keeps exactly one pair per yielded
node). -/
def Trie.items (t : Trie α V) (pre : List α) : List (List α × V) :=
  match t._get_node pre with
  | none => []
  | some n =>
    (n.iterNodes t._alphabet []).filterMap fun p => p.1.value.map fun v => (p.2, v)

/-- Trie.difference_update: for every key of other (in other's iteration
order), remove it from self when present.  Other is never mutated, so its
key sequence is fixed before the loop; the removals touch only self. -/
def Trie.difference_update (t o : Trie α V) : Trie α V :=
  (o.keys []).foldl (fun acc k => if acc.contains k then acc.removeD k else acc) t

/-- Trie.intersection_update: for every key of self, overwrite with other's
value when other contains it, else remove it.  The source iterates self
lazily while mutating it, but a removal only detaches a chain of unoccupied
single-child nodes on the removed key's own path, never a node still pending
on the iterator's stack (those are later siblings, off that path), and
neither mutation changes any not-yet-visited node's occupancy, so the
interleaved iteration yields exactly the keys of the original tree — the
list this fold runs over. -/
def Trie.intersection_update (t o : Trie α V) : Trie α V :=
  (t.keys []).foldl (fun acc k =>
    match o.getItem k with
    | .ok v => acc.insert k v
    | .error _ => acc.removeD k) t

/-- Trie.difference: a brand-new tree with self's alphabet, updated with self
(a copy), then difference_update with other. -/
def Trie.difference (t o : Trie α V) : Trie α V :=
  ((Trie.init t._alphabet).update t).difference_update o

/-- Trie.intersection: a brand-new tree with self's alphabet, updated with
self (a copy), then intersection_update with other. -/
def Trie.intersection (t o : Trie α V) : Trie α V :=
  ((Trie.init t._alphabet).update t).intersection_update o


theorem Node.iterNodes_def (alphabet : List α) (n : Node α V) (pre : List α) :
    n.iterNodes alphabet pre
      = (match n.value with
         | some _ => [(n, pre)]
         | none => [])
        ++ alphabet.flatMap fun c =>
            match lookupChild c n.children with
            | some ch => ch.iterNodes alphabet (pre ++ [c])
            | none => [] := by
  rw [Node.iterNodes]
  congr 1
  refine congrArg _ ?_
  funext c
  cases hl : lookupChild c n.children <;> rfl

theorem Node.getNode_append (n : Node α V) (p s : List α) :
    n.getNode (p ++ s) = (n.getNode p).bind fun m => m.getNode s := by
  induction p generalizing n with
  | nil => simp
  | cons c p ih =>
    rw [List.cons_append, Node.getNode_cons, Node.getNode_cons]
    cases lookupChild c n.children
    · rfl
    · exact ih _

theorem Node.mem_iterNodes {alphabet : List α} (n : Node α V) :
    ∀ (pre : List α) (m : Node α V) (w : List α),
    ((m, w) ∈ n.iterNodes alphabet pre
      ↔ ∃ s, w = pre ++ s ∧ n.getNode s = some m ∧ m.value.isSome = true
          ∧ ∀ c ∈ s, c ∈ alphabet) := by
  induction n using Node.childrenInduction with
  | h cs v ih =>
    intro pre m w
    rw [Node.iterNodes_def]
    rw [List.mem_append, List.mem_flatMap]
    constructor
    · intro hmem
      rcases hmem with hmem | hmem
      · revert hmem
        cases hv : v with
        | none =>
          intro hmem
          simp at hmem
        | some w0 =>
          intro hmem
          simp at hmem
          obtain ⟨hm1, hm2⟩ := hmem
          subst hm1
          subst hm2
          exact ⟨[], by simp, by simp, by simp, by simp⟩
      · obtain ⟨c, hca, hmem⟩ := hmem
        cases hl : lookupChild c (Node.mk cs v).children with
        | none =>
          rw [hl] at hmem
          simp at hmem
        | some ch =>
          rw [hl] at hmem
          obtain ⟨s2, hw, hg, hocc, hall⟩ :=
            (ih (c, ch) (mem_of_lookupChild hl) (pre ++ [c]) m w).1 hmem
          refine ⟨c :: s2, by simp [hw], ?_, hocc, ?_⟩
          · rw [Node.getNode_cons, hl]
            exact hg
          · intro d hd
            rcases List.mem_cons.1 hd with rfl | hd
            · exact hca
            · exact hall d hd
    · rintro ⟨s, rfl, hg, hocc, hall⟩
      cases s with
      | nil =>
        left
        rw [Node.getNode_nil] at hg
        injection hg with hg
        subst hg
        revert hocc
        cases hv : v with
        | none =>
          intro hocc
          simp at hocc
        | some w0 =>
          intro hocc
          simp
      | cons c s2 =>
        right
        rw [Node.getNode_cons] at hg
        cases hl : lookupChild c (Node.mk cs v).children with
        | none =>
          rw [hl] at hg
          exact Option.noConfusion hg
        | some ch =>
          rw [hl] at hg
          refine ⟨c, hall c (List.mem_cons_self _ _), ?_⟩
          rw [hl]
          exact (ih (c, ch) (mem_of_lookupChild hl) (pre ++ [c]) m _).2
            ⟨s2, by simp, hg, hocc, fun d hd => hall d (List.mem_cons_of_mem _ hd)⟩

theorem Node.occupied_of_mem_iterNodes {alphabet : List α} {n m : Node α V}
    {pre w : List α} (h : (m, w) ∈ n.iterNodes alphabet pre) :
    m.value.isSome = true := by
  obtain ⟨s, -, -, hocc, -⟩ := (Node.mem_iterNodes n pre m w).1 h
  exact hocc


theorem Trie.mem_keys (t : Trie α V) (pre s : List α) :
    s ∈ t.keys pre
      ↔ (t._root.lookupVal (pre ++ s)).isSome = true ∧ ∀ c ∈ s, c ∈ t._alphabet := by
  unfold Trie.keys Trie._get_node
  have happ : t._root.lookupVal (pre ++ s)
      = (t._root.getNode pre).bind fun m => m.lookupVal s := by
    unfold Node.lookupVal
    rw [Node.getNode_append]
    cases t._root.getNode pre <;> rfl
  rw [happ]
  cases hp : t._root.getNode pre with
  | none => simp
  | some n =>
    rw [List.mem_map]
    constructor
    · rintro ⟨⟨m, w⟩, hmem, rfl⟩
      obtain ⟨s2, hw2, hg, hocc, hall⟩ := (Node.mem_iterNodes n [] m w).1 hmem
      rw [List.nil_append] at hw2
      subst hw2
      refine ⟨?_, hall⟩
      show (n.lookupVal w).isSome = true
      unfold Node.lookupVal
      rw [hg]
      simpa using hocc
    · rintro ⟨hsome, hall⟩
      have hsome2 : (n.lookupVal s).isSome = true := hsome
      unfold Node.lookupVal at hsome2
      cases hg : n.getNode s with
      | none =>
        rw [hg] at hsome2
        simp at hsome2
      | some m =>
        rw [hg] at hsome2
        refine ⟨(m, s), ?_, rfl⟩
        exact (Node.mem_iterNodes n [] m s).2 ⟨s, by simp, hg, by simpa using hsome2, hall⟩

theorem Trie.mem_keys_contains (t : Trie α V) (pre s : List α) :
    s ∈ t.keys pre ↔ t.contains (pre ++ s) = true ∧ ∀ c ∈ s, c ∈ t._alphabet := by
  rw [Trie.mem_keys, Trie.contains_eq]

theorem Trie.removeD_cases (t : Trie α V) (k : List α) :
    (t.contains k = false ∧ t.removeD k = t)
    ∨ (∃ r, t._root.removeNode k = .ok r
        ∧ t.removeD k = ⟨t._alphabet, r, t._count - 1⟩) := by
  unfold Trie.removeD Trie.remove
  cases hrn : t._root.removeNode k with
  | ok r => exact Or.inr ⟨r, rfl, rfl⟩
  | error e =>
    refine Or.inl ⟨?_, rfl⟩
    rw [Trie.contains_false_iff]
    cases hv : t._root.lookupVal k with
    | none => rfl
    | some w =>
      obtain ⟨r, hr⟩ := Node.removeNode_ok_of_isSome (by rw [hv]; rfl)
      rw [hr] at hrn
      exact Except.noConfusion hrn

theorem Trie.removeD_lookupVal_self {t : Trie α V} (hw : t._root.wf = true) (k : List α) :
    (t.removeD k)._root.lookupVal k = none := by
  rcases Trie.removeD_cases t k with ⟨hc, heq⟩ | ⟨r, hok, heq⟩
  · rw [heq]
    exact (Trie.contains_false_iff t k).1 hc
  · rw [heq]
    exact Node.removeNode_lookupVal_self hok hw

theorem Trie.removeD_lookupVal_frame {t : Trie α V} (hw : t._root.wf = true)
    {k k2 : List α} (hne : k2 ≠ k) :
    (t.removeD k)._root.lookupVal k2 = t._root.lookupVal k2 := by
  rcases Trie.removeD_cases t k with ⟨hc, heq⟩ | ⟨r, hok, heq⟩
  · rw [heq]
  · rw [heq]
    exact Node.removeNode_lookupVal_frame hok hw k2 hne

theorem Trie.removeD_wf {t : Trie α V} (hw : t._root.wf = true) (k : List α) :
    (t.removeD k)._root.wf = true := by
  rcases Trie.removeD_cases t k with ⟨hc, heq⟩ | ⟨r, hok, heq⟩
  · rw [heq]
    exact hw
  · rw [heq]
    exact Node.removeNode_wf hok hw

theorem Trie.removeD_Inv {t : Trie α V} (hinv : t.Inv) (k : List α) : (t.removeD k).Inv := by
  obtain ⟨hw, hc, hp⟩ := hinv
  rcases Trie.removeD_cases t k with ⟨-, heq⟩ | ⟨r, hok, heq⟩
  · rw [heq]
    exact ⟨hw, hc, hp⟩
  · rw [heq]
    refine ⟨Node.removeNode_wf hok hw, ?_, Node.removeNode_pruned hok hp⟩
    have hcs := Node.removeNode_countSubtree hok
    show t._count - 1 = r.countSubtree
    omega

theorem Trie.insert_lookupVal_self (t : Trie α V) (k : List α) (v : V) :
    (t.insert k v)._root.lookupVal k = some v :=
  Node.lookupVal_insertNode_self t._root k v

theorem Trie.insert_lookupVal_frame (t : Trie α V) {k k2 : List α} (v : V)
    (hne : k2 ≠ k) :
    (t.insert k v)._root.lookupVal k2 = t._root.lookupVal k2 :=
  Node.lookupVal_insertNode_ne t._root v hne

theorem Trie.insert_Inv {t : Trie α V} (hinv : t.Inv) (k : List α) (v : V) :
    (t.insert k v).Inv := by
  obtain ⟨hw, hc, hp⟩ := hinv
  refine ⟨Node.wf_insertNode k v hw, ?_, Node.pruned_insertNode k v hp⟩
  show (if t.contains k = true then t._count else t._count + 1)
    = (t._root.insertNode k v).countSubtree
  rw [Node.countSubtree_insertNode, ← hc, Trie.contains_eq]
  cases hcc : (t._root.lookupVal k).isSome <;> simp

theorem Trie.update_Inv {t o : Trie α V} (hinv : t.Inv) (hop : o._root.pruned = true) :
    (t.update o).Inv := by
  obtain ⟨hw, hc, hp⟩ := hinv
  refine ⟨Node.wf_updateNode o._root t._root hw, ?_,
    Node.pruned_updateNode o._root t._root hp hop⟩
  show t._count + (t._root.updateNode o._root).2
    = ((t._root.updateNode o._root).1).countSubtree
  rw [Node.countSubtree_updateNode, hc]

theorem Trie.init_Inv (alphabet : List α) : (Trie.init alphabet : Trie α V).Inv := by
  refine ⟨Node.wf_empty, ?_, Node.pruned_empty⟩
  show 0 = (Node.mk [] none).countSubtree
  rw [Node.countSubtree_mk]
  simp

theorem Trie.update_lookupVal {t o : Trie α V} (hwo : o._root.wf = true) (k : List α) :
    (t.update o)._root.lookupVal k
      = (o._root.lookupVal k).or (t._root.lookupVal k) :=
  Node.lookupVal_updateNode hwo t._root k


theorem Trie.getItem_ok_iff (t : Trie α V) (k : List α) (v : V) :
    t.getItem k = .ok v ↔ t._root.lookupVal k = some v := by
  rw [Trie.getItem_eq]
  cases hv : t._root.lookupVal k <;> simp

theorem Trie.lookupVal_eq_none_of_getItem_error {t : Trie α V} {k : List α} {e : String}
    (h : t.getItem k = .error e) : t._root.lookupVal k = none := by
  rw [Trie.getItem_eq] at h
  cases hv : t._root.lookupVal k
  · rfl
  · rw [hv] at h
    exact Except.noConfusion h

theorem diffStep_lookupVal_self {t : Trie α V} (hw : t._root.wf = true) (a : List α) :
    (if t.contains a then t.removeD a else t)._root.lookupVal a = none := by
  by_cases hc : t.contains a = true
  · rw [if_pos hc]
    exact Trie.removeD_lookupVal_self hw a
  · rw [Bool.not_eq_true] at hc
    rw [hc]
    simp only [Bool.false_eq_true, if_false]
    exact (Trie.contains_false_iff t a).1 hc

theorem diffStep_lookupVal_frame {t : Trie α V} (hw : t._root.wf = true) {a k : List α}
    (hne : k ≠ a) :
    (if t.contains a then t.removeD a else t)._root.lookupVal k
      = t._root.lookupVal k := by
  by_cases hc : t.contains a = true
  · rw [if_pos hc]
    exact Trie.removeD_lookupVal_frame hw hne
  · rw [Bool.not_eq_true] at hc
    simp only [hc, Bool.false_eq_true, if_false]

theorem diffStep_wf {t : Trie α V} (hw : t._root.wf = true) (a : List α) :
    (if t.contains a then t.removeD a else t)._root.wf = true := by
  by_cases hc : t.contains a = true
  · rw [if_pos hc]
    exact Trie.removeD_wf hw a
  · rw [Bool.not_eq_true] at hc
    simp only [hc, Bool.false_eq_true, if_false]
    exact hw

theorem diffStep_Inv {t : Trie α V} (hinv : t.Inv) (a : List α) :
    (if t.contains a then t.removeD a else t).Inv := by
  by_cases hc : t.contains a = true
  · rw [if_pos hc]
    exact Trie.removeD_Inv hinv a
  · rw [Bool.not_eq_true] at hc
    simp only [hc, Bool.false_eq_true, if_false]
    exact hinv

theorem foldl_difference_lookupVal (L : List (List α)) :
    ∀ t : Trie α V, t._root.wf = true → ∀ k : List α,
    (L.foldl (fun acc k2 => if acc.contains k2 then acc.removeD k2 else acc) t)._root.lookupVal k
      = if k ∈ L then none else t._root.lookupVal k := by
  induction L with
  | nil =>
    intro t hw k
    simp
  | cons a L ih =>
    intro t hw k
    rw [List.foldl_cons]
    rw [ih _ (diffStep_wf hw a) k]
    by_cases hkL : k ∈ L
    · rw [if_pos hkL, if_pos (List.mem_cons_of_mem _ hkL)]
    · rw [if_neg hkL]
      by_cases hka : k = a
      · subst hka
        rw [if_pos (List.mem_cons_self _ _)]
        exact diffStep_lookupVal_self hw k
      · have hmm : k ∉ a :: L := by
          intro hm
          rcases List.mem_cons.1 hm with h | h
          · exact hka h
          · exact hkL h
        rw [if_neg hmm]
        exact diffStep_lookupVal_frame hw hka

theorem foldl_difference_Inv (L : List (List α)) :
    ∀ t : Trie α V, t.Inv →
    (L.foldl (fun acc k2 => if acc.contains k2 then acc.removeD k2 else acc) t).Inv := by
  induction L with
  | nil =>
    intro t hinv
    exact hinv
  | cons a L ih =>
    intro t hinv
    rw [List.foldl_cons]
    exact ih _ (diffStep_Inv hinv a)

theorem interStep_lookupVal_self {t : Trie α V} (o : Trie α V) (hw : t._root.wf = true)
    (a : List α) :
    (match o.getItem a with
      | .ok v => t.insert a v
      | .error _ => t.removeD a)._root.lookupVal a = o._root.lookupVal a := by
  cases hoi : o.getItem a with
  | ok v =>
    rw [Trie.insert_lookupVal_self]
    exact ((Trie.getItem_ok_iff o a v).1 hoi).symm
  | error e =>
    rw [Trie.removeD_lookupVal_self hw a]
    exact (Trie.lookupVal_eq_none_of_getItem_error hoi).symm

theorem interStep_lookupVal_frame {t : Trie α V} (o : Trie α V) (hw : t._root.wf = true)
    {a k : List α} (hne : k ≠ a) :
    (match o.getItem a with
      | .ok v => t.insert a v
      | .error _ => t.removeD a)._root.lookupVal k = t._root.lookupVal k := by
  cases hoi : o.getItem a with
  | ok v => exact Trie.insert_lookupVal_frame t v hne
  | error e => exact Trie.removeD_lookupVal_frame hw hne

theorem interStep_wf {t : Trie α V} (o : Trie α V) (hw : t._root.wf = true) (a : List α) :
    (match o.getItem a with
      | .ok v => t.insert a v
      | .error _ => t.removeD a)._root.wf = true := by
  cases hoi : o.getItem a with
  | ok v => exact Node.wf_insertNode a v hw
  | error e => exact Trie.removeD_wf hw a

theorem interStep_Inv {t : Trie α V} (o : Trie α V) (hinv : t.Inv) (a : List α) :
    (match o.getItem a with
      | .ok v => t.insert a v
      | .error _ => t.removeD a).Inv := by
  cases hoi : o.getItem a with
  | ok v => exact Trie.insert_Inv hinv a v
  | error e => exact Trie.removeD_Inv hinv a

theorem foldl_intersection_lookupVal (o : Trie α V) (L : List (List α)) :
    ∀ t : Trie α V, t._root.wf = true → ∀ k : List α,
    (L.foldl (fun acc k2 => match o.getItem k2 with
        | .ok v => acc.insert k2 v
        | .error _ => acc.removeD k2) t)._root.lookupVal k
      = if k ∈ L then o._root.lookupVal k else t._root.lookupVal k := by
  induction L with
  | nil =>
    intro t hw k
    simp
  | cons a L ih =>
    intro t hw k
    rw [List.foldl_cons]
    rw [ih _ (interStep_wf o hw a) k]
    by_cases hkL : k ∈ L
    · rw [if_pos hkL, if_pos (List.mem_cons_of_mem _ hkL)]
    · rw [if_neg hkL]
      by_cases hka : k = a
      · subst hka
        rw [if_pos (List.mem_cons_self _ _)]
        exact interStep_lookupVal_self o hw k
      · have hmm : k ∉ a :: L := by
          intro hm
          rcases List.mem_cons.1 hm with h | h
          · exact hka h
          · exact hkL h
        rw [if_neg hmm]
        exact interStep_lookupVal_frame o hw hka

theorem foldl_intersection_Inv (o : Trie α V) (L : List (List α)) :
    ∀ t : Trie α V, t.Inv →
    (L.foldl (fun acc k2 => match o.getItem k2 with
        | .ok v => acc.insert k2 v
        | .error _ => acc.removeD k2) t).Inv := by
  induction L with
  | nil =>
    intro t hinv
    exact hinv
  | cons a L ih =>
    intro t hinv
    rw [List.foldl_cons]
    exact ih _ (interStep_Inv o hinv a)

theorem Trie.difference_update_lookupVal {t : Trie α V} (o : Trie α V)
    (hw : t._root.wf = true) (k : List α) :
    (t.difference_update o)._root.lookupVal k
      = if k ∈ o.keys [] then none else t._root.lookupVal k :=
  foldl_difference_lookupVal (o.keys []) t hw k

theorem Trie.intersection_update_lookupVal {t : Trie α V} (o : Trie α V)
    (hw : t._root.wf = true) (k : List α) :
    (t.intersection_update o)._root.lookupVal k
      = if k ∈ t.keys [] then o._root.lookupVal k else t._root.lookupVal k :=
  foldl_intersection_lookupVal o (t.keys []) t hw k

theorem Trie.difference_update_Inv {t : Trie α V} (o : Trie α V) (hinv : t.Inv) :
    (t.difference_update o).Inv :=
  foldl_difference_Inv (o.keys []) t hinv

theorem Trie.intersection_update_Inv {t : Trie α V} (o : Trie α V) (hinv : t.Inv) :
    (t.intersection_update o).Inv :=
  foldl_intersection_Inv o (t.keys []) t hinv


theorem lookupChild_append_none {d : α} {cs cs2 : List (α × Node α V)}
    (h1 : lookupChild d cs = none) (h2 : lookupChild d cs2 = none) :
    lookupChild d (cs ++ cs2) = none := by
  induction cs with
  | nil => exact h2
  | cons p rest ih =>
    obtain ⟨c, m⟩ := p
    simp only [lookupChild_cons] at h1
    by_cases hc : c = d
    · rw [if_pos hc] at h1
      exact Option.noConfusion h1
    · rw [if_neg hc] at h1
      rw [List.cons_append, lookupChild_cons, if_neg hc]
      exact ih h1

theorem updateChildren_copy (ocs : List (α × Node α V))
    (hn : (childKeys ocs).Nodup) :
    ∀ cs : List (α × Node α V), (∀ c ∈ childKeys ocs, lookupChild c cs = none) →
    (updateChildren cs ocs).1
      = cs ++ ocs.map fun p => (p.1, ((Node.mk [] none).updateNode p.2).1) := by
  induction ocs with
  | nil =>
    intro cs hdis
    rw [updateChildren_nil]
    simp
  | cons q rest ih =>
    obtain ⟨c, och⟩ := q
    intro cs hdis
    simp only [childKeys, List.map_cons, List.nodup_cons] at hn
    have hlc : lookupChild c cs = none := hdis c (by simp [childKeys])
    rw [updateChildren_cons, hlc]
    simp only [Option.getD_none]
    have hset : setChild c ((Node.mk [] none).updateNode och).1 cs
        = cs ++ [(c, ((Node.mk [] none).updateNode och).1)] := by
      have : c ∉ childKeys cs := by
        intro hm
        rw [← lookupChild_isSome_iff_mem] at hm
        rw [hlc] at hm
        exact Bool.noConfusion hm
      clear hlc hdis
      induction cs with
      | nil => simp
      | cons p2 rest2 ih2 =>
        obtain ⟨c2, m2⟩ := p2
        simp only [childKeys, List.map_cons, List.mem_cons] at this
        push_neg at this
        rw [setChild_cons, if_neg (Ne.symm this.1)]
        rw [ih2 this.2]
        simp
    rw [hset]
    rw [ih hn.2 _ ?_]
    · simp
    · intro d hd
      apply lookupChild_append_none
      · apply hdis
        simp only [childKeys, List.map_cons, List.mem_cons]
        exact Or.inr hd
      · have hdc : ¬ c = d := by
          intro he
          rw [he] at hn
          exact hn.1 hd
        simp [hdc]

theorem Node.updateNode_empty_copy {o : Node α V} (hwo : o.wf = true) :
    ((Node.mk [] none).updateNode o).1 = o := by
  induction o using Node.childrenInduction with
  | h ocs ov ih =>
    rw [Node.wf_iff] at hwo
    rw [Node.updateNode_def]
    dsimp only
    simp only [Node.children_mk, Node.value_mk]
    have hcopy := updateChildren_copy ocs hwo.1 [] (fun c hc => rfl)
    rw [hcopy]
    simp only [List.nil_append]
    have hmap : (ocs.map fun p => (p.1, ((Node.mk [] none).updateNode p.2).1)) = ocs := by
      have : ∀ p ∈ ocs, (p.1, ((Node.mk [] none).updateNode p.2).1) = p := by
        intro p hp
        rw [ih p hp (hwo.2 p hp)]
      calc ocs.map (fun p => (p.1, ((Node.mk [] none).updateNode p.2).1))
          = ocs.map id := List.map_congr_left this
        _ = ocs := List.map_id ocs
    rw [hmap]
    cases ov <;> rfl

theorem Trie.update_init_root {t : Trie α V} (hw : t._root.wf = true)
    (alphabet : List α) :
    ((Trie.init alphabet).update t)._root = t._root :=
  Node.updateNode_empty_copy hw

theorem Trie.update_init_count {t : Trie α V} (hw : t._root.wf = true)
    (alphabet : List α) :
    ((Trie.init alphabet).update t)._count = t._root.countSubtree := by
  show 0 + ((Trie.init alphabet : Trie α V)._root.updateNode t._root).2
    = t._root.countSubtree
  have hcnt := Node.countSubtree_updateNode t._root
    (Trie.init alphabet : Trie α V)._root
  simp only [Trie.init] at hcnt ⊢
  rw [Node.updateNode_empty_copy hw] at hcnt
  have hz : (Node.mk ([] : List (α × Node α V)) none).countSubtree = 0 := by
    rw [Node.countSubtree_mk]
    simp
  omega

theorem Trie.update_init_alphabet (t : Trie α V) (alphabet : List α) :
    ((Trie.init alphabet).update t)._alphabet = alphabet := rfl


/-- Precedence of symbols: position of first occurrence in the alphabet. -/
def alphaLt (alphabet : List α) (c d : α) : Prop :=
  alphabet.indexOf c < alphabet.indexOf d

/-- Lexicographic order on words induced by the alphabet's symbol precedence
(a proper prefix precedes its extensions). -/
def lexLt (alphabet : List α) : List α → List α → Prop :=
  List.Lex (alphaLt alphabet)

theorem pairwise_alphaLt {alphabet : List α} (h : alphabet.Nodup) :
    alphabet.Pairwise (alphaLt alphabet) := by
  rw [List.pairwise_iff_getElem]
  intro i j hi hj hij
  unfold alphaLt
  rw [List.indexOf_getElem h i hi, List.indexOf_getElem h j hj]
  exact hij

theorem lexLt_prefix (alphabet : List α) (pre : List α) (c : α) (s : List α) :
    lexLt alphabet pre (pre ++ c :: s) := by
  induction pre with
  | nil => exact List.Lex.nil
  | cons a pre ih => exact List.Lex.cons ih

theorem lexLt_append_lt {alphabet : List α} {c d : α} (h : alphaLt alphabet c d)
    (pre s1 s2 : List α) :
    lexLt alphabet (pre ++ c :: s1) (pre ++ d :: s2) := by
  induction pre with
  | nil => exact List.Lex.rel h
  | cons a pre ih => exact List.Lex.cons ih

theorem mem_iterNodes_block_shape {alphabet : List α} {n : Node α V}
    {pre : List α} {c : α} {y : Node α V × List α}
    (hy : y ∈ (match lookupChild c n.children with
        | some ch => ch.iterNodes alphabet (pre ++ [c])
        | none => ([] : List (Node α V × List α)))) :
    ∃ s, y.2 = pre ++ c :: s := by
  cases hlc : lookupChild c n.children with
  | none =>
    rw [hlc] at hy
    simp at hy
  | some ch =>
    rw [hlc] at hy
    obtain ⟨m, w⟩ := y
    obtain ⟨s, hw, -, -, -⟩ := (Node.mem_iterNodes ch (pre ++ [c]) m w).1 hy
    exact ⟨s, by simp [hw]⟩

theorem Node.iterNodes_sorted {alphabet : List α} (hnd : alphabet.Nodup) (n : Node α V) :
    ∀ pre : List α,
    List.Pairwise (fun p q : Node α V × List α => lexLt alphabet p.2 q.2)
      (n.iterNodes alphabet pre) := by
  induction n using Node.childrenInduction with
  | h cs v ih =>
    intro pre
    rw [Node.iterNodes_def]
    rw [List.pairwise_append]
    refine ⟨?_, ?_, ?_⟩
    · cases v <;> simp
    · rw [List.flatMap_def, List.pairwise_flatten]
      constructor
      · intro l hl
        rw [List.mem_map] at hl
        obtain ⟨c, hca, hfc⟩ := hl
        subst hfc
        cases hlc : lookupChild c (Node.mk cs v).children with
        | none => exact List.Pairwise.nil
        | some ch =>
          exact ih (c, ch) (mem_of_lookupChild (by simpa using hlc)) (pre ++ [c])
      · rw [List.pairwise_map]
        apply List.Pairwise.imp ?_ (pairwise_alphaLt hnd)
        intro c d hcd
        intro x hx y hy
        obtain ⟨s1, hx1⟩ := mem_iterNodes_block_shape hx
        obtain ⟨s2, hy1⟩ := mem_iterNodes_block_shape hy
        rw [hx1, hy1]
        exact lexLt_append_lt hcd pre s1 s2
    · intro x hx y hy
      have hxval : x = (Node.mk cs v, pre) := by
        revert hx
        cases v with
        | none =>
          intro hx
          simp at hx
        | some w0 =>
          intro hx
          simpa using hx
      rw [List.mem_flatMap] at hy
      obtain ⟨c, hca, hy⟩ := hy
      obtain ⟨s2, hy1⟩ := mem_iterNodes_block_shape hy
      rw [hxval, hy1]
      exact lexLt_prefix alphabet pre c s2

theorem Trie.keys_sorted (t : Trie α V) (hnd : t._alphabet.Nodup) (pre : List α) :
    List.Pairwise (lexLt t._alphabet) (t.keys pre) := by
  unfold Trie.keys Trie._get_node
  cases hp : t._root.getNode pre with
  | none => simp
  | some n =>
    rw [List.pairwise_map]
    exact Node.iterNodes_sorted hnd n []


theorem Trie.union_lookupVal {t o : Trie α V} (hwt : t._root.wf = true)
    (hwo : o._root.wf = true) (k : List α) :
    (t.union o)._root.lookupVal k
      = (o._root.lookupVal k).or (t._root.lookupVal k) := by
  unfold Trie.union
  rw [Trie.update_lookupVal hwo, Trie.update_lookupVal hwt]
  have hz : (Trie.init t._alphabet : Trie α V)._root.lookupVal k = none :=
    Node.lookupVal_empty k
  rw [hz]
  cases o._root.lookupVal k <;> cases t._root.lookupVal k <;> rfl

theorem Trie.difference_lookupVal {t : Trie α V} (o : Trie α V)
    (hwt : t._root.wf = true) (k : List α) :
    (t.difference o)._root.lookupVal k
      = if o.contains k = true ∧ ∀ c ∈ k, c ∈ o._alphabet then none
        else t._root.lookupVal k := by
  unfold Trie.difference
  have hw3 : ((Trie.init t._alphabet).update t)._root.wf = true := by
    rw [Trie.update_init_root hwt]
    exact hwt
  rw [Trie.difference_update_lookupVal o hw3 k, Trie.update_init_root hwt]
  by_cases hm : k ∈ o.keys []
  · have hc := (Trie.mem_keys_contains o [] k).1 hm
    rw [List.nil_append] at hc
    rw [if_pos hm, if_pos hc]
  · have hc : ¬(o.contains k = true ∧ ∀ c ∈ k, c ∈ o._alphabet) := by
      intro hcon
      apply hm
      rw [Trie.mem_keys_contains, List.nil_append]
      exact hcon
    rw [if_neg hm, if_neg hc]

theorem Trie.intersection_lookupVal {t : Trie α V} (o : Trie α V)
    (hwt : t._root.wf = true) (k : List α) :
    (t.intersection o)._root.lookupVal k
      = if t.contains k = true ∧ ∀ c ∈ k, c ∈ t._alphabet then o._root.lookupVal k
        else t._root.lookupVal k := by
  unfold Trie.intersection
  have hw3 : ((Trie.init t._alphabet).update t)._root.wf = true := by
    rw [Trie.update_init_root hwt]
    exact hwt
  rw [Trie.intersection_update_lookupVal o hw3 k]
  have hkeys : ((Trie.init t._alphabet).update t).keys [] = t.keys [] := by
    unfold Trie.keys Trie._get_node
    rw [Trie.update_init_root hwt]
    rfl
  rw [hkeys, Trie.update_init_root hwt]
  by_cases hm : k ∈ t.keys []
  · have hc := (Trie.mem_keys_contains t [] k).1 hm
    rw [List.nil_append] at hc
    rw [if_pos hm, if_pos hc]
  · have hc : ¬(t.contains k = true ∧ ∀ c ∈ k, c ∈ t._alphabet) := by
      intro hcon
      apply hm
      rw [Trie.mem_keys_contains, List.nil_append]
      exact hcon
    rw [if_neg hm, if_neg hc]

/-- One mutating step on a tree, following the mutator surface of the class;
binary operations carry their operand, and a pure set operation continues
with its result tree. -/
inductive Op (α V : Type) where
  | insert (k : List α) (v : V)
  | remove (k : List α)
  | update (o : Trie α V)
  | difference_update (o : Trie α V)
  | intersection_update (o : Trie α V)
  | union (o : Trie α V)
  | difference (o : Trie α V)
  | intersection (o : Trie α V)

/-- Apply one operation (a remove of an absent key raises and leaves the tree
unchanged). -/
def applyOp (t : Trie α V) : Op α V → Trie α V
  | .insert k v => t.insert k v
  | .remove k => t.removeD k
  | .update o => t.update o
  | .difference_update o => t.difference_update o
  | .intersection_update o => t.intersection_update o
  | .union o => t.union o
  | .difference o => t.difference o
  | .intersection o => t.intersection o

/-- Operand trees of binary operations are themselves trees of this class,
so they satisfy the tree invariants. -/
def OpOK : Op α V → Prop
  | .insert _ _ => True
  | .remove _ => True
  | .update o => o.Inv
  | .difference_update o => o.Inv
  | .intersection_update o => o.Inv
  | .union o => o.Inv
  | .difference o => o.Inv
  | .intersection o => o.Inv

/-- A sequence of mutating operations applied in order. -/
def applyOps (t : Trie α V) (ops : List (Op α V)) : Trie α V :=
  ops.foldl applyOp t

theorem applyOp_Inv {t : Trie α V} {op : Op α V} (hinv : t.Inv) (hop : OpOK op) :
    (applyOp t op).Inv := by
  cases op with
  | insert k v => exact Trie.insert_Inv hinv k v
  | remove k => exact Trie.removeD_Inv hinv k
  | update o => exact Trie.update_Inv hinv hop.2.2
  | difference_update o => exact Trie.difference_update_Inv o hinv
  | intersection_update o => exact Trie.intersection_update_Inv o hinv
  | union o =>
    exact Trie.update_Inv (Trie.update_Inv (Trie.init_Inv _) hinv.2.2) hop.2.2
  | difference o =>
    exact Trie.difference_update_Inv o (Trie.update_Inv (Trie.init_Inv _) hinv.2.2)
  | intersection o =>
    exact Trie.intersection_update_Inv o (Trie.update_Inv (Trie.init_Inv _) hinv.2.2)

theorem applyOps_Inv {t : Trie α V} {ops : List (Op α V)} (hinv : t.Inv)
    (hops : ∀ op ∈ ops, OpOK op) : (applyOps t ops).Inv := by
  induction ops generalizing t with
  | nil => exact hinv
  | cons op ops ih =>
    exact ih (applyOp_Inv hinv (hops op (List.mem_cons_self _ _)))
      fun op2 h2 => hops op2 (List.mem_cons_of_mem _ h2)

/-- C1: for every sequence of mutating operations (insert, remove, update,
difference_update, intersection_update, and the pure set operations carried
on with their result trees, every binary operand being itself a tree of the
class), after each operation the cached count returned by len equals the
occupied-node count recomputed by full traversal (Trie.count, the spec's
count_recomputed). -/
theorem C1_len_eq_count_recomputed (alphabet : List α) (ops : List (Op α V))
    (hops : ∀ op ∈ ops, OpOK op) (i : Nat) :
    (applyOps (Trie.init alphabet) (ops.take i)).len
      = (applyOps (Trie.init alphabet) (ops.take i)).count_recomputed :=
  (applyOps_Inv (Trie.init_Inv alphabet)
    fun op h => hops op (List.take_subset i ops h)).2.1

/-- C9: invariant I1 — at the end of every mutating operation (every binary
operand being itself a tree of the class), every reachable non-root node is
occupied or has at least one child. -/
theorem C9_pruning_invariant (alphabet : List α) (ops : List (Op α V))
    (hops : ∀ op ∈ ops, OpOK op) (i : Nat) :
    (applyOps (Trie.init alphabet) (ops.take i))._root.pruned = true :=
  (applyOps_Inv (Trie.init_Inv alphabet)
    fun op h => hops op (List.take_subset i ops h)).2.2


theorem Trie.mem_keys_nil_iff (t : Trie α V) (k : List α) :
    k ∈ t.keys [] ↔ t.contains k = true ∧ ∀ c ∈ k, c ∈ t._alphabet := by
  rw [Trie.mem_keys_contains, List.nil_append]

/-- C6 (amended): union returns a brand-new tree holding the union of the
operands' key maps with other's values winning on collisions; difference
removes from a copy of self exactly the keys that other's iteration
enumerates — other's keys all of whose symbols occur in other's alphabet —
keeping self's values; intersection keeps, among self's keys enumerable via
self's alphabet, exactly those contained in other, with other's values,
while self keys containing out-of-alphabet symbols are retained with self's
values; the operands are never mutated (each pure operation assembles a
fresh tree from a new root). -/
theorem C6_pure_set_operations (t o : Trie α V) (hwt : t._root.wf = true)
    (hwo : o._root.wf = true) (k : List α) :
    (t.union o)._root.lookupVal k = (o._root.lookupVal k).or (t._root.lookupVal k)
    ∧ (t.difference o)._root.lookupVal k
        = (if o.contains k = true ∧ ∀ c ∈ k, c ∈ o._alphabet then none
           else t._root.lookupVal k)
    ∧ (t.intersection o)._root.lookupVal k
        = (if t.contains k = true ∧ ∀ c ∈ k, c ∈ t._alphabet then o._root.lookupVal k
           else t._root.lookupVal k) :=
  ⟨Trie.union_lookupVal hwt hwo k, Trie.difference_lookupVal o hwt k,
   Trie.intersection_lookupVal o hwt k⟩

unseal Node.iterNodes Node.updateNode updateChildren in
/-- C6 counterexample: with alphabet [0], self = key-1 valued 5 and
other = key-1 valued 9 (a symbol outside the alphabet), both trees contain
the key, yet difference keeps the key with self's value (the claim demands
its removal, the key being in other), and intersection keeps self's value 5
(the claim demands other's value 9). -/
theorem C6_counterexample_out_of_alphabet :
    (let s1 : Trie Nat Nat := (Trie.init [0]).insert [1] 5
     let o1 : Trie Nat Nat := (Trie.init [0]).insert [1] 9
     s1.contains [1] = true ∧ o1.contains [1] = true
       ∧ (s1.difference o1).contains [1] = true
       ∧ (s1.difference o1).get [1] 0 = 5
       ∧ (s1.intersection o1).get [1] 0 = 5
       ∧ (s1.union o1).get [1] 0 = 9) := by
  decide

/-- C7 (amended): update makes self's key-value map its old map overridden
by all of other's keys with other's values, keeping the cached count equal
to the recomputed count (adjusted exactly for the newly occupied nodes);
difference_update removes exactly the keys enumerated by other's iteration
(other's keys all of whose symbols occur in other's alphabet), leaving the
remaining values untouched; intersection_update keeps, among self's keys
enumerable via self's alphabet, exactly those also contained in other, with
other's values, while self keys containing out-of-alphabet symbols are
retained unchanged; other is never mutated. -/
theorem C7_in_place_set_operations (t o : Trie α V) (hwt : t._root.wf = true)
    (hwo : o._root.wf = true) (k : List α) :
    (t.update o)._root.lookupVal k
        = (o._root.lookupVal k).or (t._root.lookupVal k)
    ∧ (t._count = t._root.countSubtree →
        (t.update o)._count = (t.update o)._root.countSubtree)
    ∧ (t.difference_update o)._root.lookupVal k
        = (if o.contains k = true ∧ ∀ c ∈ k, c ∈ o._alphabet then none
           else t._root.lookupVal k)
    ∧ (t.intersection_update o)._root.lookupVal k
        = (if t.contains k = true ∧ ∀ c ∈ k, c ∈ t._alphabet then o._root.lookupVal k
           else t._root.lookupVal k) := by
  refine ⟨Trie.update_lookupVal hwo k, ?_, ?_, ?_⟩
  · intro hc
    show t._count + (t._root.updateNode o._root).2
      = ((t._root.updateNode o._root).1).countSubtree
    rw [Node.countSubtree_updateNode, hc]
  · rw [Trie.difference_update_lookupVal o hwt k]
    simp only [Trie.mem_keys_nil_iff]
  · rw [Trie.intersection_update_lookupVal o hwt k]
    simp only [Trie.mem_keys_nil_iff]

unseal Node.iterNodes Node.updateNode updateChildren in
/-- C7 counterexample: with alphabet [0] and key 1 (a symbol outside the
alphabet), difference_update leaves a key that other contains, and
intersection_update against an empty other keeps the key with its old
value, against the claim's postconditions. -/
theorem C7_counterexample_out_of_alphabet :
    (let s1 : Trie Nat Nat := (Trie.init [0]).insert [1] 5
     let o1 : Trie Nat Nat := (Trie.init [0]).insert [1] 9
     let e0 : Trie Nat Nat := Trie.init [0]
     o1.contains [1] = true
       ∧ (s1.difference_update o1).contains [1] = true
       ∧ (s1.intersection_update e0).contains [1] = true
       ∧ (s1.intersection_update e0).get [1] 0 = 5) := by
  decide


/-- A concrete operation sequence used to instantiate the count invariant. -/
def c1ops : List (Op Nat Nat) :=
  [Op.insert [0] 5, Op.insert [0, 0] 6,
   Op.update ((Trie.init [0, 1]).insert [1] 7), Op.remove [0]]

unseal Node.wf Node.pruned Node.countSubtree in
theorem C1_len_eq_count_recomputed_witness :
    (∀ op ∈ c1ops, OpOK op)
    ∧ (applyOps (Trie.init [0, 1]) (c1ops.take 4)).len
        = (applyOps (Trie.init [0, 1]) (c1ops.take 4)).count_recomputed := by
  have hops : ∀ op ∈ c1ops, OpOK op := by
    intro op h
    simp only [c1ops, List.mem_cons, List.not_mem_nil, or_false] at h
    rcases h with rfl | rfl | rfl | rfl
    · trivial
    · trivial
    · exact ⟨by decide, by decide, by decide⟩
    · trivial
  exact ⟨hops, C1_len_eq_count_recomputed [0, 1] c1ops hops 4⟩

/-- A concrete operation sequence used to instantiate the pruning invariant. -/
def c9ops : List (Op Nat Nat) :=
  [Op.insert [0, 1] 5, Op.insert [0] 6, Op.remove [0, 1],
   Op.intersection_update ((Trie.init [0, 1]).insert [0] 8)]

unseal Node.wf Node.pruned Node.countSubtree in
theorem C9_pruning_invariant_witness :
    (∀ op ∈ c9ops, OpOK op)
    ∧ (applyOps (Trie.init [0, 1]) (c9ops.take 4))._root.pruned = true := by
  have hops : ∀ op ∈ c9ops, OpOK op := by
    intro op h
    simp only [c9ops, List.mem_cons, List.not_mem_nil, or_false] at h
    rcases h with rfl | rfl | rfl | rfl
    · trivial
    · trivial
    · trivial
    · exact ⟨by decide, by decide, by decide⟩
  exact ⟨hops, C9_pruning_invariant [0, 1] c9ops hops 4⟩

/-- A concrete tree with one key, used to instantiate the error claim. -/
def c3t : Trie Nat Nat := (Trie.init [0, 1]).insert [0] 5

theorem C3_keynotfound_witness :
    ((∃ e, c3t.remove [1] = .error e) ↔ c3t.contains [1] = false)
    ∧ ((∃ e, c3t.getItem [1] = .error e) ↔ c3t.contains [1] = false)
    ∧ (c3t.contains [1] = false → c3t.removeD [1] = c3t) :=
  C3_keynotfound_iff_absent_and_unchanged c3t [1]

/-- The spec's first set-algebra operand, keys a ↦ 5 and b ↦ 6. -/
def c6t1 : Trie Char Nat := ((Trie.init ['a', 'b', 'c']).insert ['a'] 5).insert ['b'] 6

/-- The spec's second set-algebra operand, keys b ↦ 6 and c ↦ 7. -/
def c6t2 : Trie Char Nat := ((Trie.init ['a', 'b', 'c']).insert ['b'] 6).insert ['c'] 7

unseal Node.wf in
theorem C6_pure_set_operations_witness :
    c6t1._root.wf = true ∧ c6t2._root.wf = true
    ∧ ((c6t1.union c6t2)._root.lookupVal ['c']
          = (c6t2._root.lookupVal ['c']).or (c6t1._root.lookupVal ['c'])
        ∧ (c6t1.difference c6t2)._root.lookupVal ['c']
            = (if c6t2.contains ['c'] = true ∧ ∀ c ∈ (['c'] : List Char), c ∈ c6t2._alphabet
               then none else c6t1._root.lookupVal ['c'])
        ∧ (c6t1.intersection c6t2)._root.lookupVal ['c']
            = (if c6t1.contains ['c'] = true ∧ ∀ c ∈ (['c'] : List Char), c ∈ c6t1._alphabet
               then c6t2._root.lookupVal ['c'] else c6t1._root.lookupVal ['c'])) :=
  ⟨by decide, by decide, C6_pure_set_operations c6t1 c6t2 (by decide) (by decide) ['c']⟩

/-- First operand for the in-place witness, keys 0 ↦ 1 and 1 ↦ 2. -/
def c7t1 : Trie Nat Nat := ((Trie.init [0, 1, 2]).insert [0] 1).insert [1] 2

/-- Second operand for the in-place witness, keys 1 ↦ 3 and 2 ↦ 4. -/
def c7t2 : Trie Nat Nat := ((Trie.init [0, 1, 2]).insert [1] 3).insert [2] 4

unseal Node.wf in
theorem C7_in_place_set_operations_witness :
    c7t1._root.wf = true ∧ c7t2._root.wf = true
    ∧ ((c7t1.update c7t2)._root.lookupVal [1]
          = (c7t2._root.lookupVal [1]).or (c7t1._root.lookupVal [1])
        ∧ (c7t1._count = c7t1._root.countSubtree →
            (c7t1.update c7t2)._count = (c7t1.update c7t2)._root.countSubtree)
        ∧ (c7t1.difference_update c7t2)._root.lookupVal [1]
            = (if c7t2.contains [1] = true ∧ ∀ c ∈ ([1] : List Nat), c ∈ c7t2._alphabet
               then none else c7t1._root.lookupVal [1])
        ∧ (c7t1.intersection_update c7t2)._root.lookupVal [1]
            = (if c7t1.contains [1] = true ∧ ∀ c ∈ ([1] : List Nat), c ∈ c7t1._alphabet
               then c7t2._root.lookupVal [1] else c7t1._root.lookupVal [1])) :=
  ⟨by decide, by decide, C7_in_place_set_operations c7t1 c7t2 (by decide) (by decide) [1]⟩


theorem Trie.mem_items (t : Trie α V) (pre s : List α) (v : V) :
    (s, v) ∈ t.items pre
      ↔ t._root.lookupVal (pre ++ s) = some v ∧ ∀ c ∈ s, c ∈ t._alphabet := by
  unfold Trie.items Trie._get_node
  have happ : t._root.lookupVal (pre ++ s)
      = (t._root.getNode pre).bind fun m => m.lookupVal s := by
    unfold Node.lookupVal
    rw [Node.getNode_append]
    cases t._root.getNode pre <;> rfl
  rw [happ]
  cases hp : t._root.getNode pre with
  | none => simp
  | some n =>
    rw [List.mem_filterMap]
    constructor
    · rintro ⟨⟨m, w⟩, hmem, hf⟩
      obtain ⟨s2, hw2, hg, hocc, hall⟩ := (Node.mem_iterNodes n [] m w).1 hmem
      rw [List.nil_append] at hw2
      subst hw2
      revert hf
      cases hv : m.value with
      | none =>
        intro hf
        simp at hf
      | some v0 =>
        intro hf
        have hf2 : (w, v0) = (s, v) := by simpa using hf
        have hw : w = s := congrArg Prod.fst hf2
        have hv0 : v0 = v := congrArg Prod.snd hf2
        subst hw
        subst hv0
        refine ⟨?_, hall⟩
        show n.lookupVal w = some v0
        unfold Node.lookupVal
        rw [hg]
        exact hv
    · rintro ⟨hl, hall⟩
      have hl2 : n.lookupVal s = some v := hl
      unfold Node.lookupVal at hl2
      cases hg : n.getNode s with
      | none =>
        rw [hg] at hl2
        exact Option.noConfusion hl2
      | some m =>
        rw [hg] at hl2
        refine ⟨(m, s), ?_, ?_⟩
        · exact (Node.mem_iterNodes n [] m s).2
            ⟨s, by simp, hg, by simp [show m.value = some v from hl2], hall⟩
        · simp [show m.value = some v from hl2]

theorem filterMap_snd_of_occupied {l : List (Node α V × List α)}
    (h : ∀ p ∈ l, (p : Node α V × List α).1.value.isSome = true) :
    l.filterMap (fun p => p.1.value.map fun v => p.2) = l.map Prod.snd := by
  induction l with
  | nil => rfl
  | cons a l ih =>
    rw [List.filterMap_cons, List.map_cons]
    have ha := h a (List.mem_cons_self a l)
    cases hv : a.1.value with
    | none =>
      rw [hv] at ha
      simp at ha
    | some v =>
      exact congrArg (List.cons a.2) (ih fun p hp => h p (List.mem_cons_of_mem _ hp))

/-- C4 (amended): keys/values/items(prefix) resolve the node at the prefix
— an absent prefix yields the empty sequence, no error — and then
enumerate, in lexicographic order induced by each symbol's position in the
constructor-supplied alphabet, the occupied descendants whose suffixes use
only alphabet symbols: a suffix s is yielded exactly when prefix ++ s is
contained AND every symbol of s occurs in the alphabet — not every occupied
descendant, contra the claim: descendants reached through out-of-alphabet
symbols are silently skipped.  values and items enumerate the same words
with their stored values. -/
theorem C4_iteration_membership_and_order (t : Trie α V) (pre : List α)
    (hnd : t._alphabet.Nodup) :
    (t._get_node pre = none → t.keys pre = [] ∧ t.values pre = [] ∧ t.items pre = [])
    ∧ (∀ s, s ∈ t.keys pre ↔ t.contains (pre ++ s) = true ∧ ∀ c ∈ s, c ∈ t._alphabet)
    ∧ (∀ s v, (s, v) ∈ t.items pre
        ↔ t._root.lookupVal (pre ++ s) = some v ∧ ∀ c ∈ s, c ∈ t._alphabet)
    ∧ t.keys pre = (t.items pre).map Prod.fst
    ∧ t.values pre = (t.items pre).map Prod.snd
    ∧ List.Pairwise (lexLt t._alphabet) (t.keys pre) := by
  refine ⟨?_, fun s => Trie.mem_keys_contains t pre s,
    fun s v => Trie.mem_items t pre s v, ?_, ?_, Trie.keys_sorted t hnd pre⟩
  · intro h
    refine ⟨?_, ?_, ?_⟩ <;> simp [Trie.keys, Trie.values, Trie.items, h]
  · unfold Trie.keys Trie.items
    cases hp : t._get_node pre with
    | none => rfl
    | some n =>
      rw [List.map_filterMap]
      have hfun : (fun p : Node α V × List α =>
          (p.1.value.map fun v => (p.2, v)).map Prod.fst)
          = fun p : Node α V × List α => p.1.value.map fun v => p.2 := by
        funext p
        cases p.1.value <;> rfl
      rw [hfun]
      exact (filterMap_snd_of_occupied
        fun p hp2 => Node.occupied_of_mem_iterNodes hp2).symm
  · unfold Trie.values Trie.items
    cases hp : t._get_node pre with
    | none => rfl
    | some n =>
      rw [List.map_filterMap]
      have hfun : (fun p : Node α V × List α =>
          (p.1.value.map fun v => (p.2, v)).map Prod.snd)
          = fun p : Node α V × List α => p.1.value := by
        funext p
        cases p.1.value <;> rfl
      rw [hfun]

unseal Node.iterNodes in
/-- C4 counterexample: over alphabet [0], the key [1] is contained with its
value, yet iteration yields nothing — the occupied descendant reached
through the out-of-alphabet symbol 1 is never produced. -/
theorem C4_counterexample_skipped_descendant :
    (let t : Trie Nat Nat := (Trie.init [0]).insert [1] 5
     t.contains [1] = true ∧ t.get [1] 0 = 5 ∧ t.keys [] = [] ∧ t.items [] = []) := by
  decide

/-- A concrete tree over alphabet ab with keys a ↦ 5, ab ↦ 6, b ↦ 7. -/
def c4t : Trie Char Nat :=
  (((Trie.init ['a', 'b']).insert ['a'] 5).insert ['a', 'b'] 6).insert ['b'] 7

unseal Node.iterNodes in
theorem C4_iteration_witness :
    c4t._alphabet.Nodup
    ∧ List.Pairwise (lexLt c4t._alphabet) (c4t.keys [])
    ∧ c4t.keys [] = [['a'], ['a', 'b'], ['b']]
    ∧ c4t.items ['a'] = [([], 5), (['b'], 6)]
    ∧ (((Trie.init ['a', 'b']).insert ['b'] 0).insert ['a'] 0 : Trie Char Nat).keys []
        = [['a'], ['b']]
    ∧ ((((Trie.init ['a', 'b']).insert ['a', 'b'] 0).insert ['a', 'a'] 0).insert ['a'] 0
        : Trie Char Nat).keys [] = [['a'], ['a', 'a'], ['a', 'b']]
    ∧ (Trie.init ['a', 'b'] : Trie Char Nat).keys ['a'] = [] :=
  ⟨by decide, (C4_iteration_membership_and_order c4t [] (by decide)).2.2.2.2.2,
   by decide, by decide, by decide, by decide, by decide⟩

/-- C5 (amended): after insert the key is a member — contains is true and
get returns the value — irrespective of whether its symbols occur in the
constructor-supplied alphabet, so membership indeed never consults the
alphabet; but, contra the claim, the alphabet does affect which keys
iteration produces, not only their order: a key one of whose symbols is
missing from the alphabet is never yielded by keys. -/
theorem C5_out_of_alphabet_membership (t : Trie α V) (k : List α) (v d : V)
    (hout : ¬ ∀ c ∈ k, c ∈ t._alphabet) :
    (t.insert k v).contains k = true
    ∧ (t.insert k v).get k d = v
    ∧ k ∉ (t.insert k v).keys [] := by
  have hself := Node.lookupVal_insertNode_self t._root k v
  refine ⟨by simp [Trie.contains_eq, Trie.insert, hself],
          by simp [Trie.get_eq, Trie.insert, hself], ?_⟩
  intro hmem
  rw [Trie.mem_keys_nil_iff] at hmem
  exact hout hmem.2

unseal Node.iterNodes in
/-- C5 counterexample: over alphabet [a], the key [b] is inserted and is a
member with its value, yet keys/values/items enumerate nothing — iteration
misses the occupied descendant, so the alphabet affects more than order. -/
theorem C5_counterexample_alphabet_affects_enumeration :
    (let t : Trie Char Nat := (Trie.init ['a']).insert ['b'] 9
     t.contains ['b'] = true ∧ t.get ['b'] 0 = 9
       ∧ t.keys [] = [] ∧ t.values [] = [] ∧ t.items [] = []) := by
  decide

theorem C5_out_of_alphabet_membership_witness :
    (¬ ∀ c ∈ ([2] : List Nat), c ∈ (Trie.init [0, 1] : Trie Nat Nat)._alphabet)
    ∧ ((Trie.init [0, 1]).insert [2] 5 : Trie Nat Nat).contains [2] = true
    ∧ ((Trie.init [0, 1]).insert [2] 5 : Trie Nat Nat).get [2] 0 = 5
    ∧ [2] ∉ ((Trie.init [0, 1]).insert [2] 5 : Trie Nat Nat).keys [] :=
  ⟨by decide, C5_out_of_alphabet_membership (Trie.init [0, 1]) [2] 5 0 (by decide)⟩


/-- The cutoff walk of Trie.remove: walking the key, the source records the
index of the last node on the path that is the root (when cutoff_node is
still None, i.e. at step i = 0), is occupied, or has at least two children
(under the dict well-formedness invariant the assoc-list length is the dict
length); i counts the steps taken so far and b is the index recorded so
far.  On a missing child the source raises before ever using the cutoff, so
the walk just stops. -/
def Node.cutoffLoop : Node α V → List α → Nat → Nat → Nat
  | _, [], _, b => b
  | n, c :: k, i, b =>
    match lookupChild c n.children with
    | none => b
    | some ch =>
      Node.cutoffLoop ch k (i + 1)
        (if i = 0 ∨ n.value.isSome = true ∨ 2 ≤ n.children.length then i else b)

/-- The index on the path of the cutoff node recorded by Trie.remove. -/
def Node.cutoffIdx (n : Node α V) (k : List α) : Nat :=
  Node.cutoffLoop n k 0 0

/-- Helper for reasoning about the cutoff walk: the greatest position
j < |k| whose path node is occupied or has at least two children, with the
root rule ignored. -/
def Node.cutoffRel : Node α V → List α → Option Nat
  | _, [] => none
  | n, c :: k =>
    match lookupChild c n.children with
    | none => none
    | some ch =>
      match Node.cutoffRel ch k with
      | some j => some (j + 1)
      | none =>
        if n.value.isSome = true ∨ 2 ≤ n.children.length then some 0 else none

theorem Node.cutoffLoop_eq_rel (k : List α) : ∀ (n : Node α V) (i b : Nat), 1 ≤ i →
    Node.cutoffLoop n k i b
      = match Node.cutoffRel n k with
        | some j => i + j
        | none => b := by
  induction k with
  | nil =>
    intro n i b hi
    rfl
  | cons c k ih =>
    intro n i b hi
    cases hl : lookupChild c n.children with
    | none => simp [Node.cutoffLoop, Node.cutoffRel, hl]
    | some ch =>
      simp only [Node.cutoffLoop, Node.cutoffRel, hl]
      rw [ih ch (i + 1) _ (by omega)]
      cases hr : Node.cutoffRel ch k with
      | some j =>
        show i + 1 + j = i + (j + 1)
        omega
      | none =>
        have hi0 : ¬ i = 0 := by omega
        by_cases hq : n.value.isSome = true ∨ 2 ≤ n.children.length
        · rw [if_pos (Or.inr hq), if_pos hq]
          show i = i + 0
          omega
        · rw [if_neg ?hno, if_neg hq]
          case hno =>
            rintro (h0 | h0)
            · exact hi0 h0
            · exact hq h0

theorem Node.cutoffIdx_cons {n ch : Node α V} {c : α} (k : List α)
    (hl : lookupChild c n.children = some ch) :
    Node.cutoffIdx n (c :: k)
      = match Node.cutoffRel ch k with
        | some j => j + 1
        | none => 0 := by
  unfold Node.cutoffIdx
  simp only [Node.cutoffLoop, hl]
  rw [Node.cutoffLoop_eq_rel k ch 1 _ (le_refl 1)]
  cases Node.cutoffRel ch k with
  | some j => simp [Nat.add_comm]
  | none => simp

theorem Node.cutoffIdx_of_rel_some {n : Node α V} {k : List α} {j : Nat}
    (h : n.cutoffRel k = some j) : n.cutoffIdx k = j := by
  cases k with
  | nil => simp [Node.cutoffRel] at h
  | cons c k =>
    cases hl : lookupChild c n.children with
    | none => simp [Node.cutoffRel, hl] at h
    | some ch =>
      rw [Node.cutoffIdx_cons k hl]
      simp only [Node.cutoffRel, hl] at h
      cases hcr : Node.cutoffRel ch k with
      | some j2 =>
        rw [hcr] at h
        simp only [Option.some.injEq] at h
        simp [h]
      | none =>
        rw [hcr] at h
        simp only
        by_cases hq : n.value.isSome = true ∨ 2 ≤ n.children.length
        · rw [if_pos hq] at h
          simp only [Option.some.injEq] at h
          omega
        · rw [if_neg hq] at h
          exact Option.noConfusion h

theorem Node.cutoffRel_some_spec {k : List α} : ∀ {n : Node α V} {j : Nat},
    Node.cutoffRel n k = some j →
    j < k.length
      ∧ ∃ m, n.getNode (k.take j) = some m
          ∧ (m.value.isSome = true ∨ 2 ≤ m.children.length) := by
  induction k with
  | nil =>
    intro n j h
    simp [Node.cutoffRel] at h
  | cons c k ih =>
    intro n j h
    cases hl : lookupChild c n.children with
    | none => simp [Node.cutoffRel, hl] at h
    | some ch =>
      simp only [Node.cutoffRel, hl] at h
      cases hcr : Node.cutoffRel ch k with
      | some j2 =>
        rw [hcr] at h
        simp only [Option.some.injEq] at h
        obtain ⟨hlt, m, hm, hq⟩ := ih hcr
        subst h
        refine ⟨by simpa using Nat.succ_lt_succ hlt, m, ?_, hq⟩
        rw [List.take_succ_cons, Node.getNode_cons, hl]
        exact hm
      | none =>
        rw [hcr] at h
        by_cases hq : n.value.isSome = true ∨ 2 ≤ n.children.length
        · rw [if_pos hq] at h
          simp only [Option.some.injEq] at h
          subst h
          exact ⟨by simp, n, by simp, hq⟩
        · rw [if_neg hq] at h
          exact Option.noConfusion h

theorem Node.cutoffRel_ge {k : List α} : ∀ {n : Node α V},
    (n.getNode k).isSome = true →
    ∀ {i : Nat} {m : Node α V}, i < k.length → n.getNode (k.take i) = some m →
    (m.value.isSome = true ∨ 2 ≤ m.children.length) →
    ∃ j, Node.cutoffRel n k = some j ∧ i ≤ j := by
  induction k with
  | nil =>
    intro n _ i m hi
    exact absurd hi (by simp)
  | cons c k ih =>
    intro n hsome i m hi hgm hq
    rw [Node.getNode_cons] at hsome
    cases hl : lookupChild c n.children with
    | none =>
      rw [hl] at hsome
      simp at hsome
    | some ch =>
      rw [hl] at hsome
      have hsome2 : (ch.getNode k).isSome = true := hsome
      cases i with
      | zero =>
        have hmn : m = n := by
          rw [List.take_zero, Node.getNode_nil] at hgm
          exact (Option.some.inj hgm).symm
        subst hmn
        simp only [Node.cutoffRel, hl]
        cases hcr : Node.cutoffRel ch k with
        | some j2 => exact ⟨j2 + 1, rfl, by omega⟩
        | none => exact ⟨0, by rw [if_pos hq], le_refl 0⟩
      | succ i2 =>
        rw [List.take_succ_cons, Node.getNode_cons, hl] at hgm
        have hi2 : i2 < k.length := by simpa using hi
        obtain ⟨j2, hj2, hle⟩ := ih hsome2 hi2 hgm hq
        simp only [Node.cutoffRel, hl, hj2]
        exact ⟨j2 + 1, rfl, by omega⟩

theorem eraseChild_eq_nil_iff {c : α} {ch : Node α V} {cs : List (α × Node α V)}
    (hl : lookupChild c cs = some ch) :
    eraseChild c cs = [] ↔ cs = [(c, ch)] := by
  cases cs with
  | nil => simp at hl
  | cons p rest =>
    obtain ⟨c2, m⟩ := p
    rw [lookupChild_cons] at hl
    rw [eraseChild_cons]
    by_cases hc : c2 = c
    · subst hc
      rw [if_pos rfl] at hl ⊢
      have hm : m = ch := Option.some.inj hl
      subst hm
      constructor
      · rintro rfl
        rfl
      · intro h
        exact (List.cons.inj h).2
    · rw [if_neg hc] at hl ⊢
      constructor
      · intro h
        exact absurd h (List.cons_ne_nil _ _)
      · intro h
        exact absurd (congrArg Prod.fst (List.cons.inj h).1) hc

theorem Node.getNode_isSome_of_removeNode_ok {n r : Node α V} {k : List α}
    (h : n.removeNode k = .ok r) : (n.getNode k).isSome = true := by
  have hv := Node.removeNode_isOk_iff.1 ⟨r, h⟩
  unfold Node.lookupVal at hv
  cases hg : n.getNode k with
  | none =>
    rw [hg] at hv
    simp at hv
  | some m => rfl


theorem Node.removeNode_dead_iff {k : List α} : ∀ {n r : Node α V},
    n.removeNode k = .ok r →
    ((r.value.isNone && r.children.isEmpty) = true
      ↔ (∃ mm, n.getNode k = some mm ∧ mm.children = [])
          ∧ n.cutoffRel k = none) := by
  induction k with
  | nil =>
    intro n r h
    obtain ⟨hocc, rfl⟩ := Node.removeNode_nil_inversion h
    simp only [Node.value_mk, Node.children_mk, Option.isNone_none, Bool.true_and,
      Node.getNode_nil, Node.cutoffRel, and_true, List.isEmpty_iff]
    constructor
    · intro hc
      exact ⟨n, rfl, hc⟩
    · rintro ⟨mm, hmm, hc⟩
      rw [← Option.some.inj hmm] at hc
      exact hc
  | cons c k ih =>
    intro n r h
    obtain ⟨ch, ch2, hl, hr, hcase⟩ := Node.removeNode_cons_inversion h
    obtain ⟨cs, v⟩ := n
    simp only [Node.children_mk] at hl hcase
    have hget : Node.getNode (Node.mk cs v) (c :: k) = ch.getNode k := by
      rw [Node.getNode_cons]
      simp only [Node.children_mk, hl]
    have hcr : Node.cutoffRel (Node.mk cs v) (c :: k)
        = match Node.cutoffRel ch k with
          | some j => some (j + 1)
          | none =>
            if v.isSome = true ∨ 2 ≤ cs.length then some 0 else none := by
      simp only [Node.cutoffRel, Node.children_mk, Node.value_mk, hl]
    rcases hcase with ⟨hd, rfl⟩ | ⟨hd, rfl⟩
    · have hdc := (ih hr).1 hd
      rw [hget, hcr, hdc.2]
      simp only [Node.value_mk, Node.children_mk]
      constructor
      · intro hdead
        rw [Bool.and_eq_true, Option.isNone_iff_eq_none, List.isEmpty_iff] at hdead
        have hsing := (eraseChild_eq_nil_iff hl).1 hdead.2
        refine ⟨hdc.1, ?_⟩
        rw [if_neg ?hq]
        case hq =>
          rintro (hv | hlen)
          · rw [hdead.1] at hv
            exact Bool.noConfusion hv
          · rw [hsing] at hlen
            simp at hlen
      · rintro ⟨-, hnone⟩
        by_cases hq : v.isSome = true ∨ 2 ≤ cs.length
        · rw [if_pos hq] at hnone
          exact Option.noConfusion hnone
        · rw [Bool.and_eq_true, Option.isNone_iff_eq_none, List.isEmpty_iff]
          push_neg at hq
          have hvnone : v = none := by
            cases v with
            | none => rfl
            | some v0 => exact absurd rfl hq.1
          refine ⟨hvnone, ?_⟩
          rw [eraseChild_eq_nil_iff hl]
          have hlen1 : cs.length = 1 := by
            have hpos : 0 < cs.length := by
              cases cs with
              | nil => simp at hl
              | cons p rest => simp
            omega
          cases cs with
          | nil => simp at hl
          | cons p rest =>
            obtain ⟨c2, m⟩ := p
            have hrest : rest = [] := by
              simp only [List.length_cons] at hlen1
              exact List.length_eq_zero.1 (by omega)
            subst hrest
            rw [lookupChild_cons] at hl
            by_cases hc2 : c2 = c
            · subst hc2
              rw [if_pos rfl] at hl
              rw [Option.some.inj hl]
            · rw [if_neg hc2] at hl
              exact absurd hl (by simp)
    · have hne := setChild_ne_nil c ch2 cs
      rw [hget, hcr]
      simp only [Node.value_mk, Node.children_mk]
      constructor
      · intro hdead
        rw [Bool.and_eq_true, List.isEmpty_iff] at hdead
        exact absurd hdead.2 hne
      · rintro ⟨hterm, hnone⟩
        cases hcrch : Node.cutoffRel ch k with
        | some j =>
          rw [hcrch] at hnone
          exact Option.noConfusion hnone
        | none =>
          have : (ch2.value.isNone && ch2.children.isEmpty) = true :=
            (ih hr).2 ⟨hterm, hcrch⟩
          rw [hd] at this
          exact Bool.noConfusion this

theorem Node.removeNode_getNode_keep {k : List α} : ∀ {n r : Node α V},
    n.removeNode k = .ok r →
    (∀ mm, n.getNode k = some mm → mm.children ≠ []) →
    ∀ p, (r.getNode p).isSome = (n.getNode p).isSome := by
  induction k with
  | nil =>
    intro n r h hter p
    obtain ⟨-, rfl⟩ := Node.removeNode_nil_inversion h
    cases p with
    | nil => rfl
    | cons d p2 => rfl
  | cons c k ih =>
    intro n r h hter p
    obtain ⟨ch, ch2, hl, hr, hcase⟩ := Node.removeNode_cons_inversion h
    obtain ⟨cs, v⟩ := n
    simp only [Node.children_mk] at hl hcase
    have hget : ∀ q, Node.getNode (Node.mk cs v) (c :: q) = ch.getNode q := by
      intro q
      rw [Node.getNode_cons]
      simp only [Node.children_mk, hl]
    have hterch : ∀ mm, ch.getNode k = some mm → mm.children ≠ [] := by
      intro mm hmm
      exact hter mm (by rw [hget]; exact hmm)
    rcases hcase with ⟨hd, rfl⟩ | ⟨hd, rfl⟩
    · exfalso
      obtain ⟨⟨mm, hmm, hmmc⟩, -⟩ := (Node.removeNode_dead_iff hr).1 hd
      exact hterch mm hmm hmmc
    · cases p with
      | nil => rfl
      | cons d p2 =>
        rw [Node.getNode_cons, Node.getNode_cons]
        simp only [Node.children_mk]
        by_cases hdc : d = c
        · subst hdc
          rw [lookupChild_setChild_self, hl]
          exact ih hr hterch p2
        · rw [lookupChild_setChild_ne hdc]

theorem Node.removeNode_getNode_detach {k : List α} : ∀ {n r : Node α V},
    n.wf = true → n.removeNode k = .ok r →
    ∀ mm, n.getNode k = some mm → mm.children = [] → k ≠ [] →
    ∀ p, ((r.getNode p).isSome = true
      ↔ (n.getNode p).isSome = true ∧ ¬ (k.take (n.cutoffIdx k + 1) <+: p)) := by
  induction k with
  | nil =>
    intro n r _ _ _ _ _ hne
    exact absurd rfl hne
  | cons c k ih =>
    intro n r hw h mm hmm hmmc hne2 p
    obtain ⟨ch, ch2, hl, hr, hcase⟩ := Node.removeNode_cons_inversion h
    obtain ⟨cs, v⟩ := n
    simp only [Node.children_mk] at hl hcase
    have hnd : (childKeys cs).Nodup := ((Node.wf_iff cs v).1 hw).1
    have hwch : ch.wf = true := ((Node.wf_iff cs v).1 hw).2 _ (mem_of_lookupChild hl)
    have hget : ∀ q, Node.getNode (Node.mk cs v) (c :: q) = ch.getNode q := by
      intro q
      rw [Node.getNode_cons]
      simp only [Node.children_mk, hl]
    have hmm2 : ch.getNode k = some mm := by
      rw [hget] at hmm
      exact hmm
    have hcidx := Node.cutoffIdx_cons (n := Node.mk cs v) k (by simpa using hl)
    rcases hcase with ⟨hd, rfl⟩ | ⟨hd, rfl⟩
    · obtain ⟨-, hrel⟩ := (Node.removeNode_dead_iff hr).1 hd
      rw [hcidx, hrel]
      cases p with
      | nil =>
        simp only [Node.getNode_nil, Option.isSome_some, true_iff, true_and]
        rintro ⟨t, ht⟩
        simp at ht
      | cons d p2 =>
        rw [Node.getNode_cons, Node.getNode_cons]
        simp only [Node.children_mk]
        by_cases hdc : d = c
        · subst hdc
          rw [lookupChild_eraseChild_self hnd, hl]
          simp only [Option.isSome_none, Bool.false_eq_true, false_iff]
          rintro ⟨hsome, hpre⟩
          exact hpre (by
            rw [List.take_succ_cons, List.take_zero, List.cons_prefix_cons]
            exact ⟨rfl, ⟨p2, rfl⟩⟩)
        · rw [lookupChild_eraseChild_ne hdc]
          have hnp : ¬ ((c :: k).take (0 + 1) <+: d :: p2) := by
            rw [List.take_succ_cons, List.take_zero, List.cons_prefix_cons]
            rintro ⟨hcd, -⟩
            exact hdc hcd.symm
          simp only [hnp, not_false_iff, and_true]
    · have hterm : ∃ m2, ch.getNode k = some m2 ∧ m2.children = [] := ⟨mm, hmm2, hmmc⟩
      cases hcr : Node.cutoffRel ch k with
      | none =>
        exfalso
        have : (ch2.value.isNone && ch2.children.isEmpty) = true :=
          (Node.removeNode_dead_iff hr).2 ⟨hterm, hcr⟩
        rw [hd] at this
        exact Bool.noConfusion this
      | some j =>
        rw [hcidx, hcr]
        have hcidx2 : Node.cutoffIdx ch k = j := Node.cutoffIdx_of_rel_some hcr
        have hkne : k ≠ [] := by
          cases k with
          | nil => simp [Node.cutoffRel] at hcr
          | cons d k2 => simp
        have hih := ih hwch hr mm hmm2 hmmc hkne
        cases p with
        | nil =>
          simp only [Node.getNode_nil, Option.isSome_some, true_iff, true_and]
          rintro ⟨t, ht⟩
          simp at ht
        | cons d p2 =>
          rw [Node.getNode_cons, Node.getNode_cons]
          simp only [Node.children_mk]
          by_cases hdc : d = c
          · subst hdc
            rw [lookupChild_setChild_self, hl]
            have := hih p2
            rw [hcidx2] at this
            rw [this]
            rw [List.take_succ_cons]
            simp only [List.cons_prefix_cons, true_and]
          · rw [lookupChild_setChild_ne hdc]
            have hnp : ¬ ((c :: k).take (j + 1 + 1) <+: d :: p2) := by
              rw [List.take_succ_cons, List.cons_prefix_cons]
              rintro ⟨hcd, -⟩
              exact hdc hcd.symm
            simp only [hnp, not_false_iff, and_true]


/-- C2: removing a contained key decrements len by exactly one, removes
exactly that key — every other key keeps its membership and value — and
detaches exactly the branch below the cutoff node.  The cutoff index
recorded by the source's walk lies on the path and is the most recent
position that is the root (index 0), occupied, or has at least two
children (conjuncts 4-6); when the terminal node is childless, the nodes
that disappear are exactly those at or below the path of length
cutoff + 1 (conjunct 7), and when the terminal keeps children — or the key
is the empty word — no node disappears at all (conjuncts 8-9). -/
theorem C2_remove_detaches_cutoff_branch (t : Trie α V) (k : List α) (r : Trie α V)
    (hinv : t.Inv) (hrem : t.remove k = .ok r) :
    r.len + 1 = t.len
    ∧ r.contains k = false
    ∧ (∀ k2, k2 ≠ k → r._root.lookupVal k2 = t._root.lookupVal k2)
    ∧ (k ≠ [] → t._root.cutoffIdx k < k.length)
    ∧ (t._root.cutoffIdx k = 0
        ∨ ∃ m, t._root.getNode (k.take (t._root.cutoffIdx k)) = some m
            ∧ (m.value.isSome = true ∨ 2 ≤ m.children.length))
    ∧ (∀ i m, t._root.cutoffIdx k < i → i < k.length
        → t._root.getNode (k.take i) = some m
        → ¬(m.value.isSome = true ∨ 2 ≤ m.children.length))
    ∧ (∀ m, t._get_node k = some m → m.children = [] → k ≠ [] →
        ∀ p, ((r._root.getNode p).isSome = true
          ↔ (t._root.getNode p).isSome = true
            ∧ ¬ (k.take (t._root.cutoffIdx k + 1) <+: p)))
    ∧ (∀ m, t._get_node k = some m → m.children ≠ [] →
        ∀ p, (r._root.getNode p).isSome = (t._root.getNode p).isSome)
    ∧ (k = [] → ∀ p, (r._root.getNode p).isSome = (t._root.getNode p).isSome) := by
  obtain ⟨hw, hcount, hpr⟩ := hinv
  unfold Trie.remove at hrem
  cases hrn : t._root.removeNode k with
  | error e =>
    rw [hrn] at hrem
    exact Except.noConfusion hrem
  | ok rn =>
    rw [hrn] at hrem
    have hrem2 : Except.ok (⟨t._alphabet, rn, t._count - 1⟩ : Trie α V) = .ok r := hrem
    have hr2 : r = ⟨t._alphabet, rn, t._count - 1⟩ := (Except.ok.inj hrem2).symm
    subst hr2
    have hsome := Node.getNode_isSome_of_removeNode_ok hrn
    have hcs := Node.removeNode_countSubtree hrn
    refine ⟨?_, ?_, ?_, ?_, ?_, ?_, ?_, ?_, ?_⟩
    · show t._count - 1 + 1 = t._count
      omega
    · rw [Trie.contains_false_iff]
      exact Node.removeNode_lookupVal_self hrn hw
    · exact fun k2 hk2 => Node.removeNode_lookupVal_frame hrn hw k2 hk2
    · intro hkne
      cases k with
      | nil => exact absurd rfl hkne
      | cons c k2 =>
        rw [Node.getNode_cons] at hsome
        cases hl : lookupChild c t._root.children with
        | none =>
          rw [hl] at hsome
          simp at hsome
        | some ch =>
          rw [Node.cutoffIdx_cons k2 hl]
          cases hcr : Node.cutoffRel ch k2 with
          | none => simp
          | some j =>
            obtain ⟨hlt, -⟩ := Node.cutoffRel_some_spec hcr
            simp only [List.length_cons]
            show j + 1 < k2.length + 1
            omega
    · cases k with
      | nil => exact Or.inl rfl
      | cons c k2 =>
        rw [Node.getNode_cons] at hsome
        cases hl : lookupChild c t._root.children with
        | none =>
          rw [hl] at hsome
          simp at hsome
        | some ch =>
          rw [Node.cutoffIdx_cons k2 hl]
          cases hcr : Node.cutoffRel ch k2 with
          | none => exact Or.inl rfl
          | some j =>
            obtain ⟨hlt, m, hm, hq⟩ := Node.cutoffRel_some_spec hcr
            refine Or.inr ⟨m, ?_, hq⟩
            rw [List.take_succ_cons, Node.getNode_cons, hl]
            exact hm
    · intro i m hgt hlt hgm hq
      cases k with
      | nil => simp at hlt
      | cons c k2 =>
        rw [Node.getNode_cons] at hsome
        cases hl : lookupChild c t._root.children with
        | none =>
          rw [hl] at hsome
          simp at hsome
        | some ch =>
          have hsome2 : (ch.getNode k2).isSome = true := by
            rw [hl] at hsome
            exact hsome
          rw [Node.cutoffIdx_cons k2 hl] at hgt
          cases i with
          | zero => omega
          | succ i2 =>
            rw [List.take_succ_cons, Node.getNode_cons, hl] at hgm
            have hlt2 : i2 < k2.length := by simpa using hlt
            obtain ⟨j2, hj2, hle⟩ := Node.cutoffRel_ge hsome2 hlt2 hgm hq
            rw [hj2] at hgt
            have hgt2 : j2 + 1 < i2 + 1 := hgt
            omega
    · intro m hm hmc hkne p
      exact Node.removeNode_getNode_detach hw hrn m hm hmc hkne p
    · intro m hm hmc p
      refine Node.removeNode_getNode_keep hrn ?_ p
      intro mm hmm
      have hm2 : t._root.getNode k = some m := hm
      rw [hm2] at hmm
      rw [← Option.some.inj hmm]
      exact hmc
    · intro hk p
      subst hk
      obtain ⟨-, hrn2⟩ := Node.removeNode_nil_inversion hrn
      subst hrn2
      cases p with
      | nil => rfl
      | cons d p2 => rfl

/-- The tree of the claim's concrete example: a ↦ 5 and aa ↦ 6. -/
def c2t : Trie Char Nat := ((Trie.init ['a', 'b']).insert ['a'] 5).insert ['a', 'a'] 6

/-- The example tree after removing the word a. -/
def c2r : Trie Char Nat := c2t.removeD ['a']

unseal Node.wf Node.pruned Node.countSubtree in
theorem C2_remove_witness :
    c2t.Inv ∧ c2t.remove ['a'] = .ok c2r
    ∧ c2r.len + 1 = c2t.len ∧ c2r.len = 1
    ∧ c2r.contains ['a'] = false
    ∧ c2r.contains ['a', 'a'] = true ∧ c2r.get ['a', 'a'] 0 = 6
    ∧ (c2r._root.getNode ['a']).isSome = true
    ∧ c2t._root.cutoffIdx ['a'] = 0 := by
  have hok : c2t.remove ['a'] = .ok c2r := rfl
  refine ⟨⟨by decide, by decide, by decide⟩, hok, ?_, by decide, by decide,
    by decide, by decide, by decide, by decide⟩
  exact (C2_remove_detaches_cutoff_branch c2t ['a'] c2r
    ⟨by decide, by decide, by decide⟩ hok).1

end TriePy
